import Mathlib

/-!
# Formous: form state and validation engine

A shallow embedding of `src/formous.js` (the higher-order component returned by
`Formous(options)`), and theorems about it.

Modelling decisions.

* JavaScript values that the engine stores (field values, `failProps`) are the
  type `JSVal`: `undefined`, booleans, strings and (nested) plain objects.
  A plain object and the Immutable `Map` that `fromJS` makes of it are the same
  term; `toJS` is the identity.
* A JavaScript object or Immutable `Map` with string keys is an association
  list in iteration order, read with `getEntry` (first match).
* A property that is absent and a property that holds `undefined` are not
  distinguished in a stored field entry (`fields.x.failProps` reads the same).
* `this.state` and the instance flag `defaultsSet` make up `State`; `setState`
  and its callback are applied at once, in program order.
* A thrown `TypeError` is `Except.error JSError.typeError`.  The recursion of
  `testField` through `alsoTest` is bounded by a fuel argument; running out of
  it is `JSError.outOfFuel`.
* Every call `test.test(value, snapshot)` is recorded in a list of `TestCall`
  returned next to the result, so that statements about which rules are
  evaluated can be made.
* `warn` (module `./dx`) only reports to the developer and is left out;
  `runChecks` (same module, not among the sources) is modelled from the
  specification; `options` is the configuration after the deprecation shim,
  that is the content of `options.fields`.
* The `target.value` of a blur or change event is a string, as the annotation
  `value: string` of `testField` says; default values and stored values are any
  `JSVal`.
* A field name that is `undefined` is used as the property key "undefined"
  (`fieldKey`), in plain objects as JavaScript does and, for uniformity, in the
  `setIn` of `onChange`; the handlers are only ever bound to specs that carry
  a name.
-/

namespace Formous

/-! ## JavaScript values -/

mutual
/-- JavaScript values held in the form state. -/
inductive JSVal where
  | undefined : JSVal
  | bool (b : Bool) : JSVal
  | str (s : String) : JSVal
  | obj (props : JSProps) : JSVal
/-- Own enumerable properties of a plain object, in iteration order. -/
inductive JSProps where
  | nil : JSProps
  | cons (key : String) (val : JSVal) (rest : JSProps) : JSProps
end

mutual
/-- Decidable equality of JavaScript values. -/
def JSVal.decEq : (a b : JSVal) → Decidable (a = b)
  | .undefined, .undefined => isTrue rfl
  | .bool a, .bool b =>
    if h : a = b then isTrue (by rw [h]) else isFalse (by intro h2; cases h2; exact h rfl)
  | .str a, .str b =>
    if h : a = b then isTrue (by rw [h]) else isFalse (by intro h2; cases h2; exact h rfl)
  | .obj a, .obj b =>
    match JSProps.decEq a b with
    | isTrue h => isTrue (by rw [h])
    | isFalse h => isFalse (by intro h2; cases h2; exact h rfl)
  | .undefined, .bool _ => isFalse (by intro h; cases h)
  | .undefined, .str _ => isFalse (by intro h; cases h)
  | .undefined, .obj _ => isFalse (by intro h; cases h)
  | .bool _, .undefined => isFalse (by intro h; cases h)
  | .bool _, .str _ => isFalse (by intro h; cases h)
  | .bool _, .obj _ => isFalse (by intro h; cases h)
  | .str _, .undefined => isFalse (by intro h; cases h)
  | .str _, .bool _ => isFalse (by intro h; cases h)
  | .str _, .obj _ => isFalse (by intro h; cases h)
  | .obj _, .undefined => isFalse (by intro h; cases h)
  | .obj _, .bool _ => isFalse (by intro h; cases h)
  | .obj _, .str _ => isFalse (by intro h; cases h)
/-- Decidable equality of property lists. -/
def JSProps.decEq : (a b : JSProps) → Decidable (a = b)
  | .nil, .nil => isTrue rfl
  | .cons k v r, .cons k2 v2 r2 =>
    if hk : k = k2 then
      match JSVal.decEq v v2 with
      | isTrue hv =>
        match JSProps.decEq r r2 with
        | isTrue hr => isTrue (by rw [hk, hv, hr])
        | isFalse hr => isFalse (by intro h2; cases h2; exact hr rfl)
      | isFalse hv => isFalse (by intro h2; cases h2; exact hv rfl)
    else isFalse (by intro h2; cases h2; exact hk rfl)
  | .nil, .cons _ _ _ => isFalse (by intro h; cases h)
  | .cons _ _ _, .nil => isFalse (by intro h; cases h)
end

instance : DecidableEq JSVal := JSVal.decEq

instance : DecidableEq JSProps := JSProps.decEq

/-- JavaScript truthiness (`ToBoolean`). -/
def JSVal.truthy : JSVal → Bool
  | .undefined => false
  | .bool b => b
  | .str s => s != ""
  | .obj _ => true

/-- Read of a property: `Map.get(key, NOT_SET)`. -/
def JSProps.get? : JSProps → String → Option JSVal
  | .nil, _ => none
  | .cons k v rest, key => if k = key then some v else rest.get? key

/-- Write of a property: `Map.set(key, v)`, keeping the place of an existing key. -/
def JSProps.set : JSProps → String → JSVal → JSProps
  | .nil, key, v => .cons key v .nil
  | .cons k w rest, key, v =>
    if k = key then .cons k v rest else .cons k w (rest.set key v)

mutual
/-- Immutable `deepMerger(existing, value)`: when both sides are collections the
existing one is deep-merged with the new one, otherwise the new value wins. -/
def deepMerger (existing : JSVal) : JSVal → JSVal
  | .obj p =>
    match existing with
    | .obj e => .obj (mergeDeepProps e p)
    | _ => .obj p
  | v => v
/-- Immutable `Map.mergeDeep` on the properties of a nested object: every key of
the new object is updated in the existing one through `deepMerger`. -/
def mergeDeepProps (e : JSProps) : JSProps → JSProps
  | .nil => e
  | .cons k v rest =>
    mergeDeepProps
      (match e.get? k with
        | none => e.set k v
        | some ex => e.set k (deepMerger ex v)) rest
end

/-! ## Data model -/

/-- Thrown errors. -/
inductive JSError where
  | typeError
  | outOfFuel
  | configurationError
  deriving DecidableEq, Repr

/-- One entry of `this.state.fields`. `events` holds the name of the field the
handlers `onBlur`/`onChange`/`onFocus` were bound to, `none` when the entry has
no `events` key; `valid` is `none` when the entry has no `valid` key. -/
structure FieldState where
  events : Option String
  valid : Option Bool
  value : JSVal
  failProps : JSVal
  deriving DecidableEq

/-- The map `this.state.fields` (and its `toJS()` snapshot). -/
abbrev Fields := List (String × FieldState)

/-- A validation rule (an element of `tests`). -/
structure Rule where
  test : JSVal → Fields → Bool
  failProps : JSVal
  critical : Option Bool
  quiet : Option Bool

/-- A completed test: `{ ...test, passed, fieldName }`. -/
structure TestType where
  test : JSVal → Fields → Bool
  failProps : JSVal
  critical : Option Bool
  quiet : Option Bool
  passed : Bool
  fieldName : Option String

/-- A recorded call `test.test(value, snapshot)`. -/
structure TestCall where
  rule : Rule
  value : JSVal

/-- A field object of the configuration, `options.fields[fieldName]`, or the
`fieldSpec` made of it. Every property may be absent. -/
structure FieldSpec where
  name : Option String
  tests : Option (List Rule)
  alsoTest : Option (List String)

/-- The configuration: `options.fields`. -/
structure Options where
  fields : List (String × FieldSpec)

/-- The value of `this.state.form`. -/
structure FormState where
  touched : Bool
  valid : Option Bool
  deriving DecidableEq

/-- Component state: `this.state` and `this.defaultsSet`. -/
structure State where
  fields : Fields
  form : FormState
  defaultsSet : Bool
  deriving DecidableEq

/-- The state set up by the constructor. -/
def initialState : State :=
  { fields := [], form := { touched := false, valid := some false }, defaultsSet := false }

/-- Property read `obj[key]`. -/
def getEntry {α : Type} : List (String × α) → String → Option α
  | [], _ => none
  | (k, v) :: rest, key => if k = key then some v else getEntry rest key

/-- Property write `obj[key] = v`. -/
def setEntry {α : Type} : List (String × α) → String → α → List (String × α)
  | [], key, v => [(key, v)]
  | (k, w) :: rest, key, v =>
    if k = key then (k, v) :: rest else (k, w) :: setEntry rest key v

/-- The property key a field name is coerced to: `undefined` becomes
the string "undefined". -/
def fieldKey : Option String → String
  | some n => n
  | none => "undefined"

/-- Read `this.state.fields.getIn([fieldName, 'value'])`. -/
def getValue (fields : Fields) (fieldName : String) : JSVal :=
  match getEntry fields fieldName with
  | some e => e.value
  | none => .undefined

/-- Modelled from the spec: `allTestsPassed` of module `./helpers`, which is not
among the sources; an empty result list is treated as all tests passed, and a
list passes when every result passed. -/
def allTestsPassed (tests : List TestType) : Bool :=
  tests.all (fun t => t.passed)

/-! ## Validator: `testField` -/

/-- The completed test `{ ...test, passed: testResult, fieldName: fieldSpec.name }`. -/
def completedTest (t : Rule) (testResult : Bool) (name : Option String) : TestType :=
  { test := t.test, failProps := t.failProps, critical := t.critical, quiet := t.quiet,
    passed := testResult, fieldName := name }

/-- The loop `for (const test of tests)` of `testField`, from the current
`completedTests` and the calls recorded so far. Each iteration replaces
`completedTests` by the one-element array of the rule just run and leaves the
loop when the rule failed. -/
def runTests (name : Option String) (value : JSVal) (snapshot : Fields) :
    List Rule → List TestType → List TestCall → List TestType × List TestCall
  | [], completedTests, calls => (completedTests, calls)
  | t :: rest, _, calls =>
    let testResult := t.test value snapshot
    let completedTests := [completedTest t testResult name]
    let calls := calls ++ [{ rule := t, value := value }]
    if !testResult then (completedTests, calls)
    else runTests name value snapshot rest completedTests calls

/-- The mapping `{ ...test, quiet: true }` applied to side-effect tests. -/
def markQuiet (t : TestType) : TestType :=
  { t with quiet := some true }

/-- The `alsoTest.forEach` of `testField`: `recur fieldName` is the recursive
call `this.testField(options.fields[fieldName], stored value)`; its results are
marked quiet and appended. -/
def forEachAlsoTest (recur : String → Except JSError (List TestType × List TestCall)) :
    List String → List TestType × List TestCall →
    Except JSError (List TestType × List TestCall)
  | [], acc => .ok acc
  | fieldName :: rest, acc =>
    match recur fieldName with
    | .error e => .error e
    | .ok sideEffect =>
      forEachAlsoTest recur rest
        (acc.1 ++ sideEffect.1.map markQuiet, acc.2 ++ sideEffect.2)

/-- The method `testField(fieldSpec, value, initial)`; `fields` is
`this.state.fields`. The first argument bounds the depth of the recursion
through `alsoTest`. A `fieldSpec` that is `undefined`, or has no `tests`, throws
a `TypeError`. Returns the completed tests and the recorded calls. -/
def testField (options : Options) (fields : Fields) :
    Nat → Option FieldSpec → JSVal → Bool → Except JSError (List TestType × List TestCall)
  | 0, _, _, _ => .error .outOfFuel
  | _ + 1, none, _, _ => .error .typeError
  | fuel + 1, some fieldSpec, value, initial =>
    match fieldSpec.tests with
    | none => .error .typeError
    | some tests =>
      let own := runTests fieldSpec.name value fields tests [] []
      let failedTestCount := (own.1.filter (fun t => !t.passed)).length
      match fieldSpec.alsoTest with
      | none => .ok own
      | some alsoTest =>
        if !initial && failedTestCount == 0 then
          forEachAlsoTest
            (fun fieldName =>
              testField options fields fuel (getEntry options.fields fieldName)
                (getValue fields fieldName) false)
            alsoTest own
        else .ok own

/-! ## Form validity -/

/-- The accumulator of the `reduce` in `isFormValid`: a field object (the first
element, when nothing has been reduced yet) or the value of an `&&`. -/
inductive ReduceAcc where
  | entry (e : FieldState)
  | value (v : Option Bool)

/-- JavaScript `a && b` on values that are `undefined` or a boolean. -/
def jsAnd (a b : Option Bool) : Option Bool :=
  if a = some true then b else a

/-- The reducer `(a, b) => (typeof a === 'object' ? a.valid : a) && b.valid`. -/
def reduceValid (a : ReduceAcc) (b : FieldState) : ReduceAcc :=
  .value (jsAnd (match a with | .entry e => e.valid | .value v => v) b.valid)

/-- The method `isFormValid(options)`; `excludeField` is
`options && options.excludeField`. -/
def isFormValid (fields : Fields) (excludeField : Option String) :
    Except JSError (Option Bool) :=
  let examineFields := fields.filter (fun kv => some kv.1 != excludeField)
  if examineFields.length == 0 then .ok (some true)
  else
    match examineFields.map (fun kv => kv.2) with
    | [] => .error .typeError
    | first :: rest =>
      match rest.foldl reduceValid (.entry first) with
      | .value (some b) => .ok (some b)
      | .value none => .error .typeError
      | .entry e => .ok e.valid

/-- The method `setFormValidity()`. -/
def setFormValidity (s : State) : Except JSError State :=
  match isFormValid s.fields none with
  | .error e => .error e
  | .ok v => .ok { s with form := { s.form with valid := v } }

/-! ## Deep merge of field updates -/

/-- A plain object merged into a field entry by `mergeDeep`: `valid` is always
given, `failProps` and `value` are `none` when the object has no such key. -/
structure FieldPatch where
  failProps : Option JSVal
  valid : Bool
  value : Option JSVal

/-- The entry `fromJS` makes of an update when the field has no entry yet. -/
def FieldPatch.toEntry (p : FieldPatch) : FieldState :=
  { events := none, valid := some p.valid,
    value := p.value.getD .undefined, failProps := p.failProps.getD .undefined }

/-- Deep merge of an update into an existing entry, key by key. -/
def mergeDeepEntry (existing : FieldState) (p : FieldPatch) : FieldState :=
  { existing with
    failProps :=
      match p.failProps with
      | none => existing.failProps
      | some v => deepMerger existing.failProps v
    valid := some p.valid
    value :=
      match p.value with
      | none => existing.value
      | some v => deepMerger existing.value v }

/-- Deep merge of the update for one field name into the map of fields. -/
def mergeDeepField : Fields → String → FieldPatch → Fields
  | [], key, p => [(key, p.toEntry)]
  | (k, e) :: rest, key, p =>
    if k = key then (k, mergeDeepEntry e p) :: rest
    else (k, e) :: mergeDeepField rest key p

/-- The call `this.state.fields.mergeDeep(updates)`. -/
def mergeDeep (fields : Fields) (updates : List (String × FieldPatch)) : Fields :=
  updates.foldl (fun acc kp => mergeDeepField acc kp.1 kp.2) fields

/-! ## Mutation operations -/

/-- The update `setFieldsValidity` records for one completed test. -/
def validityPatch (t : TestType) : FieldPatch :=
  { failProps := some (if t.passed || t.quiet == some true then .undefined else t.failProps),
    valid := t.passed, value := none }

/-- The object `updatedFields` built by the loop of `setFieldsValidity`. -/
def validityUpdates (tests : List TestType) : List (String × FieldPatch) :=
  tests.foldl (fun acc t => setEntry acc (fieldKey t.fieldName) (validityPatch t)) []

/-- The method `setFieldsValidity(fieldSpec, tests)`. -/
def setFieldsValidity (_fieldSpec : FieldSpec) (tests : List TestType) (s : State) :
    Except JSError State :=
  if tests.length == 0 then .ok s
  else setFormValidity { s with fields := mergeDeep s.fields (validityUpdates tests) }

/-- The handler `onBlur(fieldSpec, { target })`; `targetValue` is `target.value`. -/
def onBlur (options : Options) (fuel : Nat) (fieldSpec : FieldSpec) (targetValue : String)
    (s : State) : Except JSError (State × List TestCall) :=
  match testField options s.fields fuel (some fieldSpec) (.str targetValue) false with
  | .error e => .error e
  | .ok completed =>
    match setFieldsValidity fieldSpec completed.1 s with
    | .error e => .error e
    | .ok s1 => .ok (s1, completed.2)

/-- The call `fields.setIn([name, 'value'], v)`. -/
def setInValue : Fields → String → JSVal → Fields
  | [], key, v => [(key, { events := none, valid := none, value := v, failProps := .undefined })]
  | (k, e) :: rest, key, v =>
    if k = key then (k, { e with value := v }) :: rest
    else (k, e) :: setInValue rest key v

/-- The handler `onChange(fieldSpec, { target })`. -/
def onChange (fieldSpec : FieldSpec) (targetValue : String) (s : State) : State :=
  { s with fields := setInValue s.fields (fieldKey fieldSpec.name) (.str targetValue) }

/-- The handler `onFocus()`. -/
def onFocus (s : State) : State :=
  { s with form := { s.form with touched := true } }

/-- The method `markFieldAsValid(fieldName, valid, { failProps, quietly })`. -/
def markFieldAsValid (fieldName : String) (valid : Bool) (failProps : JSVal) (quietly : Bool)
    (s : State) : Except JSError State :=
  setFormValidity
    { s with
      fields := mergeDeep s.fields
        [(fieldName,
          { failProps := some (if quietly then .undefined else failProps),
            valid := valid, value := none })] }

/-- The loop of `setDefaultValues` over the keys of `defaultData`, building the
object `defaults` and recording the calls of rule tests. -/
def seedDefaults (options : Options) (fields : Fields) (defaultData : List (String × JSVal)) :
    List String → List (String × FieldPatch) → List TestCall →
    Except JSError (List (String × FieldPatch) × List TestCall)
  | [], defaults, calls => .ok (defaults, calls)
  | fieldName :: rest, defaults, calls =>
    let field := getEntry options.fields fieldName
    let tests := field.bind (fun f => f.tests)
    let value := (getEntry defaultData fieldName).getD .undefined
    let testResults : Except JSError (List TestType × List TestCall) :=
      match tests with
      | some _ => testField options fields 1 field value true
      | none => .ok ([], [])
    match testResults with
    | .error e => .error e
    | .ok r =>
      seedDefaults options fields defaultData rest
        (setEntry defaults fieldName
          { failProps := none, valid := allTestsPassed r.1, value := some value })
        (calls ++ r.2)

/-- The method `setDefaultValues(defaultData)`. -/
def setDefaultValues (options : Options) (defaultData : List (String × JSVal)) (s : State) :
    Except JSError (State × List TestCall) :=
  if !s.defaultsSet then
    match seedDefaults options s.fields defaultData (defaultData.map (fun kv => kv.1)) [] [] with
    | .error e => .error e
    | .ok seeded =>
      let s1 : State := { s with fields := mergeDeep s.fields seeded.1 }
      match isFormValid s1.fields none with
      | .error e => .error e
      | .ok v =>
        .ok ({ s1 with form := { s1.form with valid := v }, defaultsSet := true }, seeded.2)
  else .ok (s, [])

/-- The `fieldSpec` of `componentWillMount`:
`{ ...options.fields[fieldName], name: fieldName }`. -/
def boundSpec (options : Options) (fieldName : String) : FieldSpec :=
  match getEntry options.fields fieldName with
  | some f => { f with name := some fieldName }
  | none => { name := some fieldName, tests := none, alsoTest := none }

/-- JavaScript `v || ''`. -/
def orEmptyString (v : JSVal) : JSVal :=
  if v.truthy then v else .str ""

/-- The loop of `componentWillMount` over the keys of `options.fields`, building
`updatedFields` and recording the calls of rule tests. -/
def mountFields (options : Options) (fields : Fields) :
    List String → Fields → List TestCall → Except JSError (Fields × List TestCall)
  | [], updatedFields, calls => .ok (updatedFields, calls)
  | fieldName :: rest, updatedFields, calls =>
    match testField options fields 1 (some (boundSpec options fieldName)) (.str "") true with
    | .error e => .error e
    | .ok r =>
      mountFields options fields rest
        (setEntry updatedFields fieldName
          { events := some fieldName, valid := some (allTestsPassed r.1),
            value := orEmptyString (getValue fields fieldName), failProps := .undefined })
        (calls ++ r.2)

/-- Modelled from the spec: `runChecks` of module `./dx`, which is not among the
sources. A configuration error, fatal to initialization, is raised when an
`alsoTest` references a field name that is not configured; a field object
without a `tests` list is only warned about, and the options are left as they
are. -/
def runChecks (options : Options) : Except JSError Unit :=
  if options.fields.all (fun kv =>
      match kv.2.alsoTest with
      | none => true
      | some alsoTest => alsoTest.all (fun g => (getEntry options.fields g).isSome))
  then .ok ()
  else .error .configurationError

/-- The method `componentWillMount()`. -/
def componentWillMount (options : Options) (s : State) :
    Except JSError (State × List TestCall) :=
  match runChecks options with
  | .error e => .error e
  | .ok _ =>
    match mountFields options s.fields (options.fields.map (fun kv => kv.1)) [] [] with
    | .error e => .error e
    | .ok mounted =>
      match setFormValidity { s with fields := mounted.1 } with
      | .error e => .error e
      | .ok s1 => .ok (s1, mounted.2)

/-! ## Definitions used to state the properties -/

/-- The rules of a list that are evaluated on a value: the rules up to and
including the first one that fails, or all of them when none fails. -/
def evaluatedRules (value : JSVal) (snapshot : Fields) : List Rule → List Rule
  | [] => []
  | t :: rest =>
    if t.test value snapshot then t :: evaluatedRules value snapshot rest else [t]

/-- The entry a field has after an update was deep-merged into the map:
the update itself when the field had no entry, the merged entry otherwise. -/
def applyPatch (existing : Option FieldState) (p : FieldPatch) : FieldState :=
  match existing with
  | none => p.toEntry
  | some e => mergeDeepEntry e p

/-- Whether every rule of a list passes on a value. -/
def allRulesPass (value : JSVal) (snapshot : Fields) (tests : List Rule) : Bool :=
  tests.all (fun t => t.test value snapshot)

/-- The conjunction of `valid` over the fields whose name is not excluded. -/
def validConjunction (fields : Fields) (excludeField : Option String) : Bool :=
  (fields.filter (fun kv => some kv.1 != excludeField)).all (fun kv => kv.2.valid == some true)

/-- The last completed test of a list that is attributed to the property key
`key`, if there is one. -/
def lastResultFor (key : String) : List TestType → Option TestType
  | [] => none
  | t :: rest =>
    match lastResultFor key rest with
    | some r => some r
    | none => if fieldKey t.fieldName = key then some t else none

/-- The state an operation returns, when it returns. -/
def stateOf (r : Except JSError (State × List TestCall)) : Option State :=
  match r with
  | .ok p => some p.1
  | .error _ => none

/-! ## Example configurations -/

/-- A rule that passes on every value but the empty string. -/
def requiredRule : Rule :=
  { test := fun v _ => v != .str "",
    failProps := .obj (.cons "errorText" (.str "required") .nil),
    critical := some true, quiet := none }

/-- A rule that passes on every value. -/
def alwaysRule : Rule :=
  { test := fun _ _ => true,
    failProps := .obj (.cons "errorText" (.str "never shown") .nil),
    critical := none, quiet := none }

/-- Two fields that name each other in `alsoTest`; each field object carries
its own `name`. -/
def mutualOptions : Options :=
  { fields :=
      [("a", { name := some "a", tests := some [requiredRule], alsoTest := some ["b"] }),
       ("b", { name := some "b", tests := some [alwaysRule], alsoTest := some ["a"] })] }

/-- The state after `componentWillMount` of `mutualOptions`. -/
def mutualMounted : State :=
  { fields :=
      [("a", { events := some "a", valid := some false, value := .str "",
               failProps := .undefined }),
       ("b", { events := some "b", valid := some true, value := .str "",
               failProps := .undefined })],
    form := { touched := false, valid := some false }, defaultsSet := false }

/-- A password field that re-validates its confirmation; the field objects have
no `name` property. -/
def passwordOptions : Options :=
  { fields :=
      [("password",
        { name := none, tests := some [alwaysRule], alsoTest := some ["confirmPassword"] }),
       ("confirmPassword",
        { name := none, tests := some [requiredRule], alsoTest := none })] }

/-- The state after `componentWillMount` of `passwordOptions`. -/
def passwordMounted : State :=
  { fields :=
      [("password", { events := some "password", valid := some true, value := .str "",
                      failProps := .undefined }),
       ("confirmPassword", { events := some "confirmPassword", valid := some false,
                             value := .str "", failProps := .undefined })],
    form := { touched := false, valid := some false }, defaultsSet := false }

/-- A field with two rules that both pass on a non-empty value. -/
def twoRuleSpec : FieldSpec :=
  { name := some "age", tests := some [requiredRule, alwaysRule], alsoTest := none }

/-- The rule list configured for a field name; empty when the field is not
configured or has no `tests`. -/
def rulesOf (options : Options) (fieldName : String) : List Rule :=
  ((getEntry options.fields fieldName).bind (fun f => f.tests)).getD []

/-- Whether a value is a plain object. -/
def JSVal.isObject : JSVal → Bool
  | .obj _ => true
  | _ => false

/-- The states a mounted form can be in: the state `componentWillMount` leaves
from the constructor state, and the states reached from there by the handlers
bound to configured fields, `setDefaultValues` and `markFieldAsValid`, each
`setState` and its callback applied at once. -/
inductive Reachable (options : Options) : State → Prop where
  | mount (s : State) (calls : List TestCall)
      (h : componentWillMount options initialState = .ok (s, calls)) : Reachable options s
  | change (s : State) (f : String) (v : String) (hs : Reachable options s)
      (hf : (getEntry options.fields f).isSome = true) :
      Reachable options (onChange (boundSpec options f) v s)
  | blur (s s1 : State) (fuel : Nat) (f : String) (v : String) (calls : List TestCall)
      (hs : Reachable options s) (hf : (getEntry options.fields f).isSome = true)
      (h : onBlur options fuel (boundSpec options f) v s = .ok (s1, calls)) :
      Reachable options s1
  | focus (s : State) (hs : Reachable options s) : Reachable options (onFocus s)
  | seed (s s1 : State) (defaultData : List (String × JSVal)) (calls : List TestCall)
      (hs : Reachable options s)
      (h : setDefaultValues options defaultData s = .ok (s1, calls)) : Reachable options s1
  | mark (s s1 : State) (fieldName : String) (valid : Bool) (failProps : JSVal)
      (quietly : Bool) (hs : Reachable options s)
      (h : markFieldAsValid fieldName valid failProps quietly s = .ok s1) :
      Reachable options s1

/-- The invariant of the reachable states: every entry has a boolean `valid`,
every configured field has an entry, `form.valid` is what `isFormValid()`
returns on the fields, and no stored value is an object as long as the defaults
were not set. -/
structure Invariant (options : Options) (s : State) : Prop where
  boolean : ∀ kv ∈ s.fields, ∃ b, kv.2.valid = some b
  configured : ∀ f, (getEntry options.fields f).isSome = true →
    (getEntry s.fields f).isSome = true
  formValid : isFormValid s.fields none = .ok s.form.valid
  unseeded : s.defaultsSet = false → ∀ kv ∈ s.fields, kv.2.value.isObject = false

/-- The state of the `passwordOptions` form after "abc" was typed into
`confirmPassword` and `password` was blurred with "secret". -/
def passwordBlurred : State :=
  { fields :=
      [("password", { events := some "password", valid := some true, value := .str "",
                      failProps := .undefined }),
       ("confirmPassword", { events := some "confirmPassword", valid := some false,
                             value := .str "abc", failProps := .undefined }),
       ("undefined", { events := none, valid := some true, value := .undefined,
                       failProps := .undefined })],
    form := { touched := false, valid := some false }, defaultsSet := false }

/-- A rule that fails on the empty string, with two failure properties. -/
def hintRule : Rule :=
  { test := fun v _ => v != .str "",
    failProps := .obj (.cons "errorText" (.str "required") (.cons "hint" (.str "fill in") .nil)),
    critical := none, quiet := none }

/-- A rule that fails on every value, with one failure property. -/
def neverRule : Rule :=
  { test := fun _ _ => false,
    failProps := .obj (.cons "errorText" (.str "rejected") .nil),
    critical := none, quiet := none }

/-- A field with two rules and a field with an empty rule list. -/
def ageOptions : Options :=
  { fields :=
      [("age", { name := none, tests := some [hintRule, neverRule], alsoTest := none }),
       ("note", { name := none, tests := some [], alsoTest := none })] }

/-- The state after `componentWillMount` of `ageOptions`. -/
def ageMounted : State :=
  { fields :=
      [("age", { events := some "age", valid := some false, value := .str "",
                 failProps := .undefined }),
       ("note", { events := some "note", valid := some true, value := .str "",
                  failProps := .undefined })],
    form := { touched := false, valid := some false }, defaultsSet := false }

/-- The state of the `ageOptions` form after `age` was blurred with the empty
string: the first rule failed and its failure properties are stored. -/
def ageBlurred : State :=
  { fields :=
      [("age", { events := some "age", valid := some false, value := .str "",
                 failProps := hintRule.failProps }),
       ("note", { events := some "note", valid := some true, value := .str "",
                  failProps := .undefined })],
    form := { touched := false, valid := some false }, defaultsSet := false }

/-- The value `defaultData[fieldName]`. -/
def defaultOf (defaultData : List (String × JSVal)) (fieldName : String) : JSVal :=
  (getEntry defaultData fieldName).getD .undefined

/-- The update a seeded field is expected to get: its default value, and
`valid` true exactly when every rule configured for it passes on that value. -/
def seedPatch (options : Options) (fields : Fields) (defaultData : List (String × JSVal))
    (fieldName : String) : FieldPatch :=
  { failProps := none,
    valid := allRulesPass (defaultOf defaultData fieldName) fields (rulesOf options fieldName),
    value := some (defaultOf defaultData fieldName) }

/-- The calls of rule tests expected when a field is seeded: the field's own
rules, up to the first failing one, on the default value. -/
def seedCalls (options : Options) (fields : Fields) (defaultData : List (String × JSVal))
    (fieldName : String) : List TestCall :=
  (evaluatedRules (defaultOf defaultData fieldName) fields (rulesOf options fieldName)).map
    (fun t => { rule := t, value := defaultOf defaultData fieldName })

/-! ## Reads of one field, and the submit handler -/

/-- Read `fields[fieldName].valid`; `none` when the entry or the key is absent. -/
def getValid (fields : Fields) (fieldName : String) : Option Bool :=
  (getEntry fields fieldName).bind (fun e => e.valid)

/-- Read `fields[fieldName].failProps`; `undefined` when the entry is absent. -/
def getFailProps (fields : Fields) (fieldName : String) : JSVal :=
  match getEntry fields fieldName with
  | some e => e.failProps
  | none => .undefined

/-- The record `{ value: field.get('value') }` that `formSubmit` makes of a field. -/
structure SubmitValue where
  value : JSVal
  deriving DecidableEq

/-- The second argument of the submit handler:
`this.state.fields.map(field => ({ value: field.get('value') })).toJS()`. -/
def submitValues (fields : Fields) : List (String × SubmitValue) :=
  fields.map (fun kv => (kv.1, { value := kv.2.value }))

/-- The function returned by `formSubmit(formHandler)`, applied to an event.
The handler is a function of its two arguments that acts on a `world` of its
own; `event.preventDefault()` acts on the event only and is left out. Returns
the component state and the world the handler leaves. -/
def formSubmit {σ : Type} (formHandler : FormState → List (String × SubmitValue) → σ → σ)
    (s : State) (world : σ) : State × σ :=
  (s, formHandler s.form (submitValues s.fields) world)

/-- A field with an empty rule list that names `confirmPassword` in `alsoTest`. -/
def emptyRulesSpec : FieldSpec :=
  { name := some "terms", tests := some [], alsoTest := some ["confirmPassword"] }

/-! ## Configuration at mount -/

/-- The entry `componentWillMount` is expected to build for a field: the
handlers bound to it, the empty string as value, and `valid` true exactly when
every rule configured for it passes on the empty string and no fields. -/
def mountEntry (options : Options) (fieldName : String) : FieldState :=
  { events := some fieldName,
    valid := some (allRulesPass (.str "") [] (rulesOf options fieldName)),
    value := .str "", failProps := .undefined }

/-- The calls of rule tests expected when a field is configured: the field's
own rules, up to the first failing one, on the empty string. -/
def mountCalls (options : Options) (fieldName : String) : List TestCall :=
  (evaluatedRules (.str "") [] (rulesOf options fieldName)).map
    (fun t => { rule := t, value := .str "" })

/-- A form with a field that has an empty rule list, whose name is the string
"undefined" and which names `confirmPassword` in `alsoTest`; the field objects
have no `name` property. -/
def undefinedKeyOptions : Options :=
  { fields :=
      [("undefined",
        { name := none, tests := some [], alsoTest := some ["confirmPassword"] }),
       ("confirmPassword",
        { name := none, tests := some [requiredRule], alsoTest := none })] }

/-- A form with a field `note` that has an empty rule list and that `password`
names in `alsoTest`; the field object of `confirmPassword` carries the name of
`note`. -/
def misnamedOptions : Options :=
  { fields :=
      [("note", { name := some "note", tests := some [], alsoTest := none }),
       ("password",
        { name := some "password", tests := some [alwaysRule],
          alsoTest := some ["note", "confirmPassword"] }),
       ("confirmPassword",
        { name := some "note", tests := some [requiredRule], alsoTest := none })] }

/-- A form with a field `terms` that has an empty rule list, next to the fields
of `passwordOptions`; `password` names both other fields in `alsoTest`. -/
def termsOptions : Options :=
  { fields :=
      [("terms", { name := none, tests := some [], alsoTest := none }),
       ("password",
        { name := none, tests := some [alwaysRule],
          alsoTest := some ["terms", "confirmPassword"] }),
       ("confirmPassword",
        { name := none, tests := some [requiredRule], alsoTest := none })] }

/-- The state after `componentWillMount` of `termsOptions`. -/
def termsMounted : State :=
  { fields :=
      [("terms", { events := some "terms", valid := some true, value := .str "",
                   failProps := .undefined }),
       ("password", { events := some "password", valid := some true, value := .str "",
                      failProps := .undefined }),
       ("confirmPassword", { events := some "confirmPassword", valid := some false,
                             value := .str "", failProps := .undefined })],
    form := { touched := false, valid := some false }, defaultsSet := false }

/-- The state of the `termsOptions` form after `password` was blurred with
"secret" right after mount. -/
def termsBlurred : State :=
  { fields :=
      [("terms", { events := some "terms", valid := some true, value := .str "",
                   failProps := .undefined }),
       ("password", { events := some "password", valid := some true, value := .str "",
                      failProps := .undefined }),
       ("confirmPassword", { events := some "confirmPassword", valid := some false,
                             value := .str "", failProps := .undefined }),
       ("undefined", { events := none, valid := some false, value := .undefined,
                       failProps := .undefined })],
    form := { touched := false, valid := some false }, defaultsSet := false }

/-- A form with one field whose field object has no `tests` list. -/
def noTestsOptions : Options :=
  { fields := [("age", { name := none, tests := none, alsoTest := none })] }

/-- A form with one field that names a field that is not configured in
`alsoTest`. -/
def ghostOptions : Options :=
  { fields := [("age", { name := none, tests := some [alwaysRule], alsoTest := some ["ghost"] })] }

/-- The states a mounted form can be in when `markFieldAsValid` is not used: the
state `componentWillMount` leaves from the constructor state, and the states
reached from there by the handlers bound to configured fields and
`setDefaultValues`. -/
inductive ReachableByEvents (options : Options) : State → Prop where
  | mount (s : State) (calls : List TestCall)
      (h : componentWillMount options initialState = .ok (s, calls)) :
      ReachableByEvents options s
  | change (s : State) (f : String) (v : String) (hs : ReachableByEvents options s)
      (hf : (getEntry options.fields f).isSome = true) :
      ReachableByEvents options (onChange (boundSpec options f) v s)
  | blur (s s1 : State) (fuel : Nat) (f : String) (v : String) (calls : List TestCall)
      (hs : ReachableByEvents options s) (hf : (getEntry options.fields f).isSome = true)
      (h : onBlur options fuel (boundSpec options f) v s = .ok (s1, calls)) :
      ReachableByEvents options s1
  | focus (s : State) (hs : ReachableByEvents options s) :
      ReachableByEvents options (onFocus s)
  | seed (s s1 : State) (defaultData : List (String × JSVal)) (calls : List TestCall)
      (hs : ReachableByEvents options s)
      (h : setDefaultValues options defaultData s = .ok (s1, calls)) :
      ReachableByEvents options s1

/-! ## Chains of `alsoTest` -/

/-- The names a configured field lists in `alsoTest`; none when it has no
`alsoTest` or is not configured. -/
def alsoTestOf (options : Options) (fieldName : String) : List String :=
  ((getEntry options.fields fieldName).bind (fun f => f.alsoTest)).getD []

/-- Whether a list of field names is a chain of `alsoTest`: every name but the
first is listed in the `alsoTest` of the name before it. -/
def isAlsoTestChain (options : Options) : List String → Bool
  | [] => true
  | [_] => true
  | f :: g :: rest => decide (g ∈ alsoTestOf options f) && isAlsoTestChain options (g :: rest)

/-! # Theorems -/

theorem getEntry_setEntry {α : Type} (l : List (String × α)) (k k2 : String) (v : α) :
    getEntry (setEntry l k v) k2 = if k = k2 then some v else getEntry l k2 := by
  induction l with
  | nil => simp [setEntry, getEntry]
  | cons hd tl ih =>
    obtain ⟨a, w⟩ := hd
    by_cases h : a = k
    · subst h
      by_cases h2 : a = k2 <;> simp [setEntry, getEntry, h2]
    · by_cases h2 : k = k2
      · subst h2
        simp [setEntry, getEntry, h, ih]
      · by_cases h3 : a = k2
        · subst h3
          simp [setEntry, getEntry, h, h2]
        · simp [setEntry, getEntry, h, h2, h3, ih]

theorem keys_setEntry_nodup {α : Type} (l : List (String × α)) (k : String) (v : α)
    (h : (l.map (fun kv => kv.1)).Nodup) : ((setEntry l k v).map (fun kv => kv.1)).Nodup := by
  induction l with
  | nil => simp [setEntry]
  | cons hd tl ih =>
    obtain ⟨a, w⟩ := hd
    simp only [List.map_cons, List.nodup_cons] at h
    by_cases hk : a = k
    · subst hk
      simpa [setEntry] using h
    · simp only [setEntry, hk, if_false, List.map_cons, List.nodup_cons]
      refine ⟨?_, ih h.2⟩
      intro hmem
      apply h.1
      clear ih h
      induction tl with
      | nil => simp [setEntry] at hmem; exact absurd hmem hk
      | cons hd2 tl2 ih2 =>
        obtain ⟨b, w2⟩ := hd2
        by_cases hb : b = k
        · subst hb
          simpa [setEntry] using hmem
        · simp only [setEntry, hb, if_false, List.map_cons, List.mem_cons] at hmem
          rcases hmem with h1 | h1
          · simp [h1]
          · simp [ih2 h1]

theorem getEntry_mergeDeepField (fields : Fields) (k k2 : String) (p : FieldPatch) :
    getEntry (mergeDeepField fields k p) k2 =
      if k = k2 then some (applyPatch (getEntry fields k) p) else getEntry fields k2 := by
  induction fields with
  | nil => simp [mergeDeepField, getEntry, applyPatch]
  | cons hd tl ih =>
    obtain ⟨a, e⟩ := hd
    by_cases h : a = k
    · subst h
      by_cases h2 : a = k2 <;> simp [mergeDeepField, getEntry, h2, applyPatch]
    · by_cases h2 : k = k2
      · subst h2
        simp [mergeDeepField, getEntry, h, ih]
      · by_cases h3 : a = k2
        · subst h3
          simp [mergeDeepField, getEntry, h, h2]
        · simp [mergeDeepField, getEntry, h, h2, h3, ih]

theorem getEntry_eq_none {α : Type} (l : List (String × α)) (k : String)
    (h : k ∉ l.map (fun kv => kv.1)) : getEntry l k = none := by
  induction l with
  | nil => rfl
  | cons hd tl ih =>
    obtain ⟨a, w⟩ := hd
    simp only [List.map_cons, List.mem_cons, not_or] at h
    simp [getEntry, Ne.symm h.1, ih h.2]

theorem getEntry_mergeDeep (updates : List (String × FieldPatch)) (fields : Fields) (k : String)
    (hnd : (updates.map (fun kv => kv.1)).Nodup) :
    getEntry (mergeDeep fields updates) k =
      match getEntry updates k with
      | none => getEntry fields k
      | some p => some (applyPatch (getEntry fields k) p) := by
  induction updates generalizing fields with
  | nil => simp [mergeDeep, getEntry]
  | cons hd tl ih =>
    obtain ⟨a, p⟩ := hd
    simp only [List.map_cons, List.nodup_cons] at hnd
    have ih2 := ih (mergeDeepField fields a p) hnd.2
    simp only [mergeDeep, List.foldl_cons] at ih2 ⊢
    rw [ih2]
    by_cases h : a = k
    · subst h
      rw [getEntry_eq_none tl a hnd.1]
      simp [getEntry, getEntry_mergeDeepField]
    · simp only [getEntry, h, if_false, getEntry_mergeDeepField]

/-! ## Form validity -/

theorem foldl_reduceValid_value (rest : List FieldState) (b : Bool)
    (h : ∀ e ∈ rest, ∃ c, e.valid = some c) :
    rest.foldl reduceValid (.value (some b)) =
      .value (some (b && rest.all (fun e => e.valid == some true))) := by
  induction rest generalizing b with
  | nil => simp
  | cons e tl ih =>
    obtain ⟨c, hc⟩ := h e (List.mem_cons_self _ _)
    have htl : ∀ e2 ∈ tl, ∃ c, e2.valid = some c := fun e2 he2 => h e2 (List.mem_cons_of_mem _ he2)
    simp only [List.foldl_cons, reduceValid, hc, jsAnd]
    cases b <;> cases c <;> simp [ih _ htl, hc]

theorem all_valid_map (l : Fields) :
    ((l.map (fun kv => kv.2)).all fun e => e.valid == some true) =
      l.all fun kv => kv.2.valid == some true := by
  induction l with
  | nil => rfl
  | cons x xs ih => simp only [List.map_cons, List.all_cons, ih]

theorem isFormValid_of_boolean (fields : Fields) (excludeField : Option String)
    (h : ∀ kv ∈ fields, ∃ b, kv.2.valid = some b) :
    isFormValid fields excludeField = .ok (some (validConjunction fields excludeField)) := by
  unfold isFormValid validConjunction
  generalize hx : fields.filter (fun kv => some kv.1 != excludeField) = examine
  have hex : ∀ kv ∈ examine, ∃ b, kv.2.valid = some b := by
    intro kv hkv
    rw [← hx] at hkv
    exact h kv (List.mem_filter.mp hkv).1
  cases examine with
  | nil => simp
  | cons first rest =>
    obtain ⟨b, hb⟩ := hex first (List.mem_cons_self _ _)
    have hrest : ∀ kv ∈ rest, ∃ b, kv.2.valid = some b :=
      fun kv hkv => hex kv (List.mem_cons_of_mem _ hkv)
    cases rest with
    | nil => simp [hb]
    | cons second tl =>
      obtain ⟨c, hc⟩ := hrest second (List.mem_cons_self _ _)
      have htl : ∀ e ∈ tl.map (fun kv => kv.2), ∃ b, e.valid = some b := by
        intro e he
        obtain ⟨kv, hkv, rfl⟩ := List.mem_map.mp he
        exact hrest kv (List.mem_cons_of_mem _ hkv)
      have hstep : reduceValid (.entry first.2) second.2 = .value (some (b && c)) := by
        simp only [reduceValid, hb, hc, jsAnd]
        cases b <;> cases c <;> simp
      simp only [List.length_cons, List.map_cons, List.foldl_cons, hstep,
        foldl_reduceValid_value _ _ htl]
      rw [all_valid_map]
      cases b <;> cases c <;> simp [hb, hc]

/-- Every entry of the map has a boolean `valid`. -/
theorem mergeDeepField_boolean (fields : Fields) (k : String) (p : FieldPatch)
    (h : ∀ kv ∈ fields, ∃ b, kv.2.valid = some b) :
    ∀ kv ∈ mergeDeepField fields k p, ∃ b, kv.2.valid = some b := by
  induction fields with
  | nil =>
    intro kv hkv
    simp only [mergeDeepField, List.mem_singleton] at hkv
    subst hkv
    exact ⟨p.valid, rfl⟩
  | cons hd tl ih =>
    obtain ⟨a, e⟩ := hd
    have htl : ∀ kv ∈ tl, ∃ b, kv.2.valid = some b := fun kv hkv => h kv (List.mem_cons_of_mem _ hkv)
    intro kv hkv
    by_cases ha : a = k
    · simp only [mergeDeepField, ha, if_true, List.mem_cons] at hkv
      rcases hkv with h1 | h1
      · subst h1
        exact ⟨p.valid, rfl⟩
      · exact htl kv h1
    · simp only [mergeDeepField, ha, if_false, List.mem_cons] at hkv
      rcases hkv with h1 | h1
      · subst h1
        exact h _ (List.mem_cons_self _ _)
      · exact ih htl kv h1

theorem mergeDeep_boolean (updates : List (String × FieldPatch)) (fields : Fields)
    (h : ∀ kv ∈ fields, ∃ b, kv.2.valid = some b) :
    ∀ kv ∈ mergeDeep fields updates, ∃ b, kv.2.valid = some b := by
  induction updates generalizing fields with
  | nil => simpa [mergeDeep] using h
  | cons hd tl ih =>
    simp only [mergeDeep, List.foldl_cons]
    exact ih _ (mergeDeepField_boolean fields hd.1 hd.2 h)

/-! ## The rule loop -/

theorem evaluatedRules_eq_takeWhile (value : JSVal) (snapshot : Fields) (tests : List Rule) :
    evaluatedRules value snapshot tests =
      tests.takeWhile (fun t => t.test value snapshot) ++
        (tests.dropWhile (fun t => t.test value snapshot)).take 1 := by
  induction tests with
  | nil => rfl
  | cons t rest ih =>
    by_cases h : t.test value snapshot = true
    · simp [evaluatedRules, List.takeWhile_cons, List.dropWhile_cons, h, ih]
    · simp [evaluatedRules, List.takeWhile_cons, List.dropWhile_cons, h]

theorem runTests_calls (name : Option String) (value : JSVal) (snapshot : Fields)
    (tests : List Rule) (acc : List TestType) (calls : List TestCall) :
    (runTests name value snapshot tests acc calls).2 =
      calls ++ (evaluatedRules value snapshot tests).map
        (fun t => ({ rule := t, value := value } : TestCall)) := by
  induction tests generalizing acc calls with
  | nil => simp [runTests, evaluatedRules]
  | cons t rest ih =>
    by_cases h : t.test value snapshot = true
    · simp [runTests, evaluatedRules, h, ih]
    · simp [runTests, evaluatedRules, h]

theorem runTests_nil (name : Option String) (value : JSVal) (snapshot : Fields)
    (acc : List TestType) (calls : List TestCall) :
    runTests name value snapshot [] acc calls = (acc, calls) := rfl

theorem runTests_results (name : Option String) (value : JSVal) (snapshot : Fields)
    (t : Rule) (rest : List Rule) (acc : List TestType) (calls : List TestCall) :
    ∃ r, r ∈ t :: rest ∧
      (runTests name value snapshot (t :: rest) acc calls).1 =
        [completedTest r (allRulesPass value snapshot (t :: rest)) name] ∧
      (allRulesPass value snapshot (t :: rest) = false →
        (t :: rest).find? (fun x => !x.test value snapshot) = some r) ∧
      (allRulesPass value snapshot (t :: rest) = true → (t :: rest).getLast? = some r) := by
  induction rest generalizing t acc calls with
  | nil =>
    refine ⟨t, List.mem_cons_self _ _, ?_, ?_, ?_⟩
    · by_cases h : t.test value snapshot = true <;>
        simp [runTests, allRulesPass, h]
    · intro hf
      simp only [allRulesPass, List.all_cons, List.all_nil, Bool.and_true] at hf
      simp [List.find?, hf]
    · intro _
      rfl
  | cons u rest ih =>
    by_cases h : t.test value snapshot = true
    · obtain ⟨r, hr, h1, h2, h3⟩ := ih u [completedTest t true name]
        (calls ++ [{ rule := t, value := value }])
      refine ⟨r, List.mem_cons_of_mem _ hr, ?_, ?_, ?_⟩
      · have : allRulesPass value snapshot (t :: u :: rest) =
            allRulesPass value snapshot (u :: rest) := by
          simp [allRulesPass, h]
        rw [this, ← h1]
        simp [runTests, h]
      · intro hf
        have hf2 : allRulesPass value snapshot (u :: rest) = false := by
          simpa [allRulesPass, h] using hf
        rw [List.find?_cons]
        simp only [h, Bool.not_true]
        exact h2 hf2
      · intro hf
        have hf2 : allRulesPass value snapshot (u :: rest) = true := by
          simpa [allRulesPass, h] using hf
        rw [List.getLast?_cons_cons]
        exact h3 hf2
    · refine ⟨t, List.mem_cons_self _ _, ?_, ?_, ?_⟩
      · simp [runTests, allRulesPass, h]
      · intro _
        simp [List.find?_cons, h]
      · intro hf
        simp [allRulesPass, h] at hf

theorem runTests_length_le (name : Option String) (value : JSVal) (snapshot : Fields)
    (tests : List Rule) :
    (runTests name value snapshot tests [] []).1.length ≤ 1 := by
  cases tests with
  | nil => simp [runTests]
  | cons t rest =>
    obtain ⟨r, _, h1, _⟩ := runTests_results name value snapshot t rest [] []
    simp [h1]

/-! ## The validator -/

theorem failedTestCount_eq (name : Option String) (value : JSVal) (snapshot : Fields)
    (tests : List Rule) :
    (((runTests name value snapshot tests [] []).1.filter (fun t => !t.passed)).length == 0) =
      allRulesPass value snapshot tests := by
  cases tests with
  | nil => simp [runTests, allRulesPass]
  | cons t rest =>
    obtain ⟨r, _, h1, _⟩ := runTests_results name value snapshot t rest [] []
    rw [h1]
    cases h : allRulesPass value snapshot (t :: rest) <;> simp [completedTest, List.filter]

theorem forEachAlsoTest_ok (recur : String → Except JSError (List TestType × List TestCall))
    (names : List String) (acc r : List TestType × List TestCall)
    (h : forEachAlsoTest recur names acc = .ok r) :
    ∃ casc cc, r = (acc.1 ++ casc, acc.2 ++ cc) ∧ ∀ t ∈ casc, t.quiet = some true := by
  induction names generalizing acc with
  | nil =>
    simp only [forEachAlsoTest, Except.ok.injEq] at h
    exact ⟨[], [], by simp [← h], by simp⟩
  | cons n rest ih =>
    simp only [forEachAlsoTest] at h
    cases hrec : recur n with
    | error e => simp [hrec] at h
    | ok side =>
      simp only [hrec] at h
      obtain ⟨casc, cc, hr, hq⟩ := ih _ h
      refine ⟨side.1.map markQuiet ++ casc, side.2 ++ cc, by simp [hr], ?_⟩
      intro t ht
      rcases List.mem_append.mp ht with h1 | h1
      · obtain ⟨u, _, rfl⟩ := List.mem_map.mp h1
        rfl
      · exact hq t h1

theorem testField_initial (options : Options) (fields : Fields) (fuel : Nat) (spec : FieldSpec)
    (tests : List Rule) (value : JSVal) (htests : spec.tests = some tests) :
    testField options fields (fuel + 1) (some spec) value true =
      .ok (runTests spec.name value fields tests [] []) := by
  simp only [testField, htests]
  cases spec.alsoTest <;> simp

theorem testField_ok (options : Options) (fields : Fields) (fuel : Nat) (spec : FieldSpec)
    (value : JSVal) (initial : Bool) (r : List TestType × List TestCall)
    (h : testField options fields fuel (some spec) value initial = .ok r) :
    ∃ tests casc cc, spec.tests = some tests ∧
      r = ((runTests spec.name value fields tests [] []).1 ++ casc,
           (runTests spec.name value fields tests [] []).2 ++ cc) ∧
      (∀ t ∈ casc, t.quiet = some true) ∧
      (initial = true ∨ allRulesPass value fields tests = false ∨ spec.alsoTest = none →
        casc = [] ∧ cc = []) := by
  cases fuel with
  | zero => simp [testField] at h
  | succ fuel =>
    cases htests : spec.tests with
    | none => simp [testField, htests] at h
    | some tests =>
      simp only [testField, htests] at h
      refine ⟨tests, ?_⟩
      cases hal : spec.alsoTest with
      | none =>
        simp only [hal, Except.ok.injEq] at h
        exact ⟨[], [], rfl, by simp [← h], by simp, fun _ => ⟨rfl, rfl⟩⟩
      | some also =>
        simp only [hal, failedTestCount_eq] at h
        by_cases hc : (!initial && allRulesPass value fields tests) = true
        · simp only [hc, if_true] at h
          obtain ⟨casc, cc, hr, hq⟩ := forEachAlsoTest_ok _ _ _ _ h
          refine ⟨casc, cc, rfl, hr, hq, ?_⟩
          intro hor
          simp only [Bool.and_eq_true, Bool.not_eq_true', ] at hc
          rcases hor with h1 | h1 | h1
          · rw [h1] at hc; simp at hc
          · rw [h1] at hc; simp at hc
          · simp at h1
        · simp only [hc, Bool.false_eq_true, if_false, Except.ok.injEq] at h
          exact ⟨[], [], rfl, by simp [← h], by simp, fun _ => ⟨rfl, rfl⟩⟩

/-! ## Applying completed tests to the fields -/

theorem getEntry_foldl_validity (tests : List TestType) (init : List (String × FieldPatch))
    (k : String) :
    getEntry (tests.foldl
        (fun acc t => setEntry acc (fieldKey t.fieldName) (validityPatch t)) init) k =
      match lastResultFor k tests with
      | some t => some (validityPatch t)
      | none => getEntry init k := by
  induction tests generalizing init with
  | nil => simp [lastResultFor]
  | cons t rest ih =>
    simp only [List.foldl_cons, ih, lastResultFor]
    cases lastResultFor k rest with
    | some r => rfl
    | none =>
      by_cases hk : fieldKey t.fieldName = k <;> simp [hk, getEntry_setEntry]

theorem getEntry_validityUpdates (tests : List TestType) (k : String) :
    getEntry (validityUpdates tests) k = (lastResultFor k tests).map validityPatch := by
  unfold validityUpdates
  rw [getEntry_foldl_validity]
  cases lastResultFor k tests <;> simp [getEntry]

theorem nodup_foldl_validity (tests : List TestType) (init : List (String × FieldPatch))
    (h : (init.map (fun kv => kv.1)).Nodup) :
    ((tests.foldl
        (fun acc t => setEntry acc (fieldKey t.fieldName) (validityPatch t)) init).map
      (fun kv => kv.1)).Nodup := by
  induction tests generalizing init with
  | nil => simpa using h
  | cons t rest ih =>
    simp only [List.foldl_cons]
    exact ih _ (keys_setEntry_nodup init _ _ h)

theorem nodup_validityUpdates (tests : List TestType) :
    ((validityUpdates tests).map (fun kv => kv.1)).Nodup :=
  nodup_foldl_validity tests [] (by simp)

theorem setFormValidity_of_boolean (s : State)
    (h : ∀ kv ∈ s.fields, ∃ b, kv.2.valid = some b) :
    setFormValidity s =
      .ok { s with form := { s.form with valid := some (validConjunction s.fields none) } } := by
  simp [setFormValidity, isFormValid_of_boolean s.fields none h]

theorem getEntry_after_validity (fields : Fields) (tests : List TestType) (k : String) :
    getEntry (mergeDeep fields (validityUpdates tests)) k =
      match lastResultFor k tests with
      | none => getEntry fields k
      | some t => some (applyPatch (getEntry fields k) (validityPatch t)) := by
  rw [getEntry_mergeDeep _ _ _ (nodup_validityUpdates tests), getEntry_validityUpdates]
  cases lastResultFor k tests <;> rfl

theorem setFieldsValidity_of_boolean (spec : FieldSpec) (tests : List TestType) (s : State)
    (h : ∀ kv ∈ s.fields, ∃ b, kv.2.valid = some b) :
    ∃ s1, setFieldsValidity spec tests s = .ok s1 ∧
      (tests = [] → s1 = s) ∧
      (∀ k, getEntry s1.fields k =
        match lastResultFor k tests with
        | none => getEntry s.fields k
        | some t => some (applyPatch (getEntry s.fields k) (validityPatch t))) ∧
      (∀ kv ∈ s1.fields, ∃ b, kv.2.valid = some b) ∧
      (tests ≠ [] → s1.form.valid = some (validConjunction s1.fields none)) ∧
      s1.form.touched = s.form.touched ∧ s1.defaultsSet = s.defaultsSet ∧
      s1.fields = mergeDeep s.fields (validityUpdates tests) := by
  cases tests with
  | nil =>
    exact ⟨s, by simp [setFieldsValidity], fun _ => rfl, fun k => by simp [lastResultFor],
      h, fun hne => absurd rfl hne, rfl, rfl, rfl⟩
  | cons t rest =>
    have hb := mergeDeep_boolean (validityUpdates (t :: rest)) s.fields h
    refine ⟨{ fields := mergeDeep s.fields (validityUpdates (t :: rest)),
              form := { s.form with
                valid := some (validConjunction
                  (mergeDeep s.fields (validityUpdates (t :: rest))) none) },
              defaultsSet := s.defaultsSet }, ?_, ?_, ?_, ?_, ?_, ?_, ?_, ?_⟩
    · simp only [setFieldsValidity, List.length_cons, Nat.add_one_ne_zero, beq_iff_eq,
        if_false]
      exact setFormValidity_of_boolean
        { s with fields := mergeDeep s.fields (validityUpdates (t :: rest)) } hb
    · intro hnil
      cases hnil
    · intro k
      exact getEntry_after_validity s.fields (t :: rest) k
    · exact hb
    · intro _
      rfl
    · rfl
    · rfl
    · rfl

theorem onBlur_of_boolean (options : Options) (fuel : Nat) (spec : FieldSpec) (v : String)
    (s : State) (res : List TestType) (calls : List TestCall)
    (h : ∀ kv ∈ s.fields, ∃ b, kv.2.valid = some b)
    (hrun : testField options s.fields fuel (some spec) (.str v) false = .ok (res, calls)) :
    ∃ s1, onBlur options fuel spec v s = .ok (s1, calls) ∧
      (res = [] → s1 = s) ∧
      (∀ k, getEntry s1.fields k =
        match lastResultFor k res with
        | none => getEntry s.fields k
        | some t => some (applyPatch (getEntry s.fields k) (validityPatch t))) ∧
      (∀ kv ∈ s1.fields, ∃ b, kv.2.valid = some b) ∧
      (res ≠ [] → s1.form.valid = some (validConjunction s1.fields none)) ∧
      s1.form.touched = s.form.touched ∧ s1.defaultsSet = s.defaultsSet ∧
      s1.fields = mergeDeep s.fields (validityUpdates res) := by
  obtain ⟨s1, h1, h2⟩ := setFieldsValidity_of_boolean spec res s h
  refine ⟨s1, ?_, h2⟩
  simp [onBlur, hrun, h1]

/-! ## Helper facts on entries -/

theorem applyPatch_valid (existing : Option FieldState) (p : FieldPatch) :
    (applyPatch existing p).valid = some p.valid := by
  cases existing <;> rfl

theorem lastResultFor_eq_none (k : String) (l : List TestType)
    (h : ∀ t ∈ l, fieldKey t.fieldName ≠ k) : lastResultFor k l = none := by
  induction l with
  | nil => rfl
  | cons t rest ih =>
    have h1 := ih (fun u hu => h u (List.mem_cons_of_mem _ hu))
    simp [lastResultFor, h1, h t (List.mem_cons_self _ _)]

theorem lastResultFor_append_of_mem (k : String) (l1 l2 : List TestType) (t : TestType)
    (h : lastResultFor k l2 = some t) : lastResultFor k (l1 ++ l2) = some t := by
  induction l1 with
  | nil => simpa using h
  | cons u rest ih => simp [lastResultFor, ih]

theorem lastResultFor_mem (k : String) (l : List TestType) (t : TestType)
    (h : lastResultFor k l = some t) : t ∈ l ∧ fieldKey t.fieldName = k := by
  induction l with
  | nil => simp [lastResultFor] at h
  | cons u rest ih =>
    simp only [lastResultFor] at h
    cases hr : lastResultFor k rest with
    | some r =>
      simp only [hr, Option.some.injEq] at h
      subst h
      exact ⟨List.mem_cons_of_mem _ (ih hr).1, (ih hr).2⟩
    | none =>
      simp only [hr] at h
      by_cases hk : fieldKey u.fieldName = k
      · simp only [hk, if_true, Option.some.injEq] at h
        subst h
        exact ⟨List.mem_cons_self _ _, hk⟩
      · simp [hk] at h

theorem lastResultFor_isSome_of_mem (k : String) (l : List TestType) (t : TestType)
    (ht : t ∈ l) (hk : fieldKey t.fieldName = k) : ∃ r, lastResultFor k l = some r := by
  induction l with
  | nil => cases ht
  | cons u rest ih =>
    cases hr : lastResultFor k rest with
    | some r => exact ⟨r, by simp [lastResultFor, hr]⟩
    | none =>
      rcases List.mem_cons.mp ht with h1 | h1
      · subst h1
        exact ⟨t, by simp [lastResultFor, hr, hk]⟩
      · obtain ⟨r, hr2⟩ := ih h1
        rw [hr] at hr2
        cases hr2

/-! ## C1: validity of the blurred field -/

/-- C1 (as amended): for a configured field `f` with a non-empty rule list, a
state whose `valid` flags are booleans and a value `v` on which `testField`
returns with no cascaded result attributed to `f`, `onBlur(f, v)` returns and
the stored `valid` of `f` is true exactly when every rule of `f` passes on `v`
against the fields as they were before the call. -/
theorem onBlur_valid_iff_all_rules_pass (options : Options) (s : State) (fuel : Nat)
    (f : String) (spec : FieldSpec) (r : Rule) (rs : List Rule) (v : String)
    (res : List TestType) (calls : List TestCall)
    (hcfg : getEntry options.fields f = some spec)
    (htests : spec.tests = some (r :: rs))
    (hbool : ∀ kv ∈ s.fields, ∃ b, kv.2.valid = some b)
    (hrun : testField options s.fields fuel (some (boundSpec options f)) (.str v) false =
      .ok (res, calls))
    (hcasc : ∀ t ∈ res.tail, fieldKey t.fieldName ≠ f) :
    ∃ s1 e, onBlur options fuel (boundSpec options f) v s = .ok (s1, calls) ∧
      getEntry s1.fields f = some e ∧
      e.valid = some (allRulesPass (.str v) s.fields (r :: rs)) := by
  obtain ⟨s1, h1, _, h3, _⟩ := onBlur_of_boolean options fuel _ v s res calls hbool hrun
  obtain ⟨tests, casc, cc, ht, hr, _, _⟩ := testField_ok _ _ _ _ _ _ _ hrun
  have hb : (boundSpec options f).tests = some (r :: rs) := by
    simp [boundSpec, hcfg, htests]
  have hn : (boundSpec options f).name = some f := by
    simp [boundSpec, hcfg]
  rw [hb] at ht
  cases ht
  obtain ⟨x, _, hx, _⟩ := runTests_results (boundSpec options f).name (.str v) s.fields r rs [] []
  simp only [Prod.mk.injEq] at hr
  have hres : res = completedTest x (allRulesPass (.str v) s.fields (r :: rs)) (some f) :: casc := by
    rw [hr.1, hx, hn]
    rfl
  rw [hres] at hcasc
  have hlast : lastResultFor f res =
      some (completedTest x (allRulesPass (.str v) s.fields (r :: rs)) (some f)) := by
    rw [hres]
    simp [lastResultFor, lastResultFor_eq_none f casc hcasc, completedTest, fieldKey]
  have h4 := h3 f
  rw [hlast] at h4
  exact ⟨s1, _, h1, h4, by rw [applyPatch_valid]; rfl⟩

/-- C1, witness: the field `password` of `passwordOptions`, blurred with the
value "secret" right after mount. -/
theorem onBlur_valid_iff_all_rules_pass_witness :
    ∃ s1 e, onBlur passwordOptions 2 (boundSpec passwordOptions "password") "secret"
        passwordMounted =
        .ok (s1, [{ rule := alwaysRule, value := .str "secret" },
                  { rule := requiredRule, value := .str "" }]) ∧
      getEntry s1.fields "password" = some e ∧
      e.valid = some (allRulesPass (.str "secret") passwordMounted.fields [alwaysRule]) :=
  onBlur_valid_iff_all_rules_pass passwordOptions passwordMounted 2 "password"
    { name := none, tests := some [alwaysRule], alsoTest := some ["confirmPassword"] }
    alwaysRule [] "secret"
    [completedTest alwaysRule true (some "password"),
     markQuiet (completedTest requiredRule false none)]
    [{ rule := alwaysRule, value := .str "secret" }, { rule := requiredRule, value := .str "" }]
    rfl rfl (by decide) rfl (by decide)

/-- C1, counterexample: with `mutualOptions` mounted, `onBlur` of field `a` with
the value "x" returns; the only rule of `a` passes on "x", yet the stored
`valid` of `a` is false, because the cascade through `b` comes back to `a`, tests
it on its stored value (the empty string) and that result is applied last. -/
theorem onBlur_valid_overwritten_by_cascade :
    stateOf (componentWillMount mutualOptions initialState) = some mutualMounted ∧
    getEntry mutualOptions.fields "a" =
      some { name := some "a", tests := some [requiredRule], alsoTest := some ["b"] } ∧
    allRulesPass (.str "x") mutualMounted.fields [requiredRule] = true ∧
    (stateOf (onBlur mutualOptions 4 (boundSpec mutualOptions "a") "x" mutualMounted)).map
        (fun s1 => (getEntry s1.fields "a").map (fun e => e.valid)) =
      some (some (some false)) := by
  refine ⟨by decide, rfl, by decide, by decide⟩

/-! ## C2: short-circuit evaluation -/

/-- C2: `testField` calls the tests of the field's rules in list order and stops
at the first failing rule. The calls of the rule loop are exactly the rules up
to and including the first failing one (all of them when none fails), each on
the given value; in initial mode `testField` returns with exactly these calls;
in any mode a returning `testField` made these calls first, and made no other
call at all when the mode is initial or some rule failed. -/
theorem testField_evaluates_up_to_first_failure (options : Options) (fields : Fields)
    (fuel : Nat) (name : Option String) (tests : List Rule) (alsoTest : Option (List String))
    (value : JSVal) :
    (runTests name value fields tests [] []).2 =
      (tests.takeWhile (fun t => t.test value fields) ++
        (tests.dropWhile (fun t => t.test value fields)).take 1).map
          (fun t => ({ rule := t, value := value } : TestCall)) ∧
    (∃ res, testField options fields (fuel + 1)
        (some { name := name, tests := some tests, alsoTest := alsoTest }) value true =
      .ok (res, (tests.takeWhile (fun t => t.test value fields) ++
        (tests.dropWhile (fun t => t.test value fields)).take 1).map
          (fun t => ({ rule := t, value := value } : TestCall)))) ∧
    (∀ n initial res calls,
      testField options fields n
          (some { name := name, tests := some tests, alsoTest := alsoTest }) value initial =
        .ok (res, calls) →
      ∃ cc, calls = (tests.takeWhile (fun t => t.test value fields) ++
          (tests.dropWhile (fun t => t.test value fields)).take 1).map
            (fun t => ({ rule := t, value := value } : TestCall)) ++ cc ∧
        (initial = true ∨ allRulesPass value fields tests = false → cc = [])) := by
  have hcalls := runTests_calls name value fields tests [] []
  rw [evaluatedRules_eq_takeWhile, List.nil_append] at hcalls
  refine ⟨hcalls, ?_, ?_⟩
  · refine ⟨(runTests name value fields tests [] []).1, ?_⟩
    rw [testField_initial options fields fuel _ tests value rfl, ← hcalls]
  · intro n initial res calls h
    obtain ⟨tests2, casc, cc, ht, hr, _, hnone⟩ := testField_ok _ _ _ _ _ _ _ h
    simp only [Option.some.injEq] at ht
    subst ht
    simp only [Prod.mk.injEq] at hr
    refine ⟨cc, ?_, ?_⟩
    · rw [hr.2, hcalls]
    · intro hor
      rcases hor with h1 | h1
      · exact (hnone (Or.inl h1)).2
      · exact (hnone (Or.inr (Or.inl h1))).2

/-! ## C3: one result per evaluated rule (not met by the code) -/

/-- C3 (the code at the failing input): on a field with two rules that both pass,
`testField` in initial mode evaluates both rules and returns a single completed
test, that of the second rule. -/
theorem testField_two_passing_rules_one_result :
    allRulesPass (.str "x") [] [requiredRule, alwaysRule] = true ∧
    (match testField { fields := [] } [] 1 (some twoRuleSpec) (.str "x") true with
      | .ok r =>
        r.2.length = 2 ∧ r.1.length = 1 ∧
          r.1.map (fun t => (t.fieldName, t.passed, t.failProps)) =
            [(some "age", true, alwaysRule.failProps)]
      | .error _ => False) := by
  refine ⟨by decide, ?_⟩
  simp [testField, twoRuleSpec, runTests, requiredRule, alwaysRule, completedTest]

/-! ## C4: attribution of cascaded results (not met by the code) -/

/-- C4 (the code at the failing input): with `passwordOptions` mounted and
"abc" typed into `confirmPassword`, `onBlur` of `password` with "secret"
cascades to `confirmPassword`, whose rule passes on its stored value "abc"; the
result is stored under the key "undefined" and the entry of `confirmPassword`
keeps `valid` false. -/
theorem cascade_result_stored_under_undefined :
    stateOf (componentWillMount passwordOptions initialState) = some passwordMounted ∧
    allRulesPass (.str "secret") passwordMounted.fields [alwaysRule] = true ∧
    getValue (onChange (boundSpec passwordOptions "confirmPassword") "abc"
      passwordMounted).fields "confirmPassword" = .str "abc" ∧
    allRulesPass (.str "abc")
      (onChange (boundSpec passwordOptions "confirmPassword") "abc" passwordMounted).fields
      [requiredRule] = true ∧
    stateOf (onBlur passwordOptions 2 (boundSpec passwordOptions "password") "secret"
        (onChange (boundSpec passwordOptions "confirmPassword") "abc" passwordMounted)) =
      some
        { fields :=
            [("password", { events := some "password", valid := some true, value := .str "",
                            failProps := .undefined }),
             ("confirmPassword", { events := some "confirmPassword", valid := some false,
                                   value := .str "abc", failProps := .undefined }),
             ("undefined", { events := none, valid := some true, value := .undefined,
                             failProps := .undefined })],
          form := { touched := false, valid := some false }, defaultsSet := false } := by
  refine ⟨by decide, by decide, by decide, by decide, by decide⟩

/-! ## C5: cascaded results are quiet -/

theorem deepMerger_undefined (existing : JSVal) : deepMerger existing .undefined = .undefined := by
  simp [deepMerger]

theorem applyPatch_failProps_undefined (existing : Option FieldState) (p : FieldPatch)
    (h : p.failProps = some .undefined) : (applyPatch existing p).failProps = .undefined := by
  cases existing with
  | none => simp [applyPatch, FieldPatch.toEntry, h]
  | some e => simp [applyPatch, mergeDeepEntry, h, deepMerger_undefined]

/-- C5: the completed tests `testField` returns after those of the field's own
rules (the cascaded ones) all have `quiet` true, and after the `onBlur` that
applies them, which returns when the `valid` flags of the state are booleans,
the entry stored for every cascaded result has `failProps` undefined. -/
theorem cascaded_results_are_quiet (options : Options) (s : State) (fuel : Nat)
    (spec : FieldSpec) (v : String) (res : List TestType) (calls : List TestCall)
    (hbool : ∀ kv ∈ s.fields, ∃ b, kv.2.valid = some b)
    (hrun : testField options s.fields fuel (some spec) (.str v) false = .ok (res, calls)) :
    ∃ tests casc, spec.tests = some tests ∧
      res = (runTests spec.name (.str v) s.fields tests [] []).1 ++ casc ∧
      (∀ t ∈ casc, t.quiet = some true) ∧
      ∃ s1, onBlur options fuel spec v s = .ok (s1, calls) ∧
        ∀ t ∈ casc, ∃ e, getEntry s1.fields (fieldKey t.fieldName) = some e ∧
          e.failProps = .undefined := by
  obtain ⟨s1, h1, _, h3, _⟩ := onBlur_of_boolean options fuel _ v s res calls hbool hrun
  obtain ⟨tests, casc, cc, ht, hr, hq, _⟩ := testField_ok _ _ _ _ _ _ _ hrun
  simp only [Prod.mk.injEq] at hr
  refine ⟨tests, casc, ht, hr.1, hq, s1, h1, ?_⟩
  intro t ht2
  obtain ⟨r, hr2⟩ := lastResultFor_isSome_of_mem (fieldKey t.fieldName) casc t ht2 rfl
  have hlast : lastResultFor (fieldKey t.fieldName) res = some r := by
    rw [hr.1]
    exact lastResultFor_append_of_mem _ _ _ _ hr2
  have h4 := h3 (fieldKey t.fieldName)
  rw [hlast] at h4
  refine ⟨_, h4, ?_⟩
  apply applyPatch_failProps_undefined
  have hquiet := hq r (lastResultFor_mem _ _ _ hr2).1
  simp [validityPatch, hquiet]

/-- C5, witness: `password` of `passwordOptions` blurred with "secret" right
after mount; the cascaded rule of `confirmPassword` fails on the empty string
and is not quiet by itself. -/
theorem cascaded_results_are_quiet_witness :
    ∃ tests casc, (boundSpec passwordOptions "password").tests = some tests ∧
      [completedTest alwaysRule true (some "password"),
        markQuiet (completedTest requiredRule false none)] =
        (runTests (boundSpec passwordOptions "password").name (.str "secret")
          passwordMounted.fields tests [] []).1 ++ casc ∧
      (∀ t ∈ casc, t.quiet = some true) ∧
      ∃ s1, onBlur passwordOptions 2 (boundSpec passwordOptions "password") "secret"
          passwordMounted =
          .ok (s1, [{ rule := alwaysRule, value := .str "secret" },
                    { rule := requiredRule, value := .str "" }]) ∧
        ∀ t ∈ casc, ∃ e, getEntry s1.fields (fieldKey t.fieldName) = some e ∧
          e.failProps = .undefined :=
  cascaded_results_are_quiet passwordOptions passwordMounted 2
    (boundSpec passwordOptions "password") "secret"
    [completedTest alwaysRule true (some "password"),
     markQuiet (completedTest requiredRule false none)]
    [{ rule := alwaysRule, value := .str "secret" }, { rule := requiredRule, value := .str "" }]
    (by decide) rfl

/-! ## C6: form validity is the conjunction of the field validities -/

/-- C6: on a map of fields whose `valid` flags are booleans, `isFormValid`
returns a boolean, the conjunction of `valid` over the fields whose name differs
from `excludeField`: true when no field remains, the `valid` of the field when
one remains. -/
theorem isFormValid_eq_conjunction (fields : Fields) (excludeField : Option String)
    (hbool : ∀ kv ∈ fields, ∃ b, kv.2.valid = some b) :
    isFormValid fields excludeField =
      .ok (some ((fields.filter (fun kv => some kv.1 != excludeField)).all
        (fun kv => kv.2.valid == some true))) ∧
    (fields.filter (fun kv => some kv.1 != excludeField) = [] →
      isFormValid fields excludeField = .ok (some true)) ∧
    (∀ k e, fields.filter (fun kv => some kv.1 != excludeField) = [(k, e)] →
      isFormValid fields excludeField = .ok e.valid) := by
  have h := isFormValid_of_boolean fields excludeField hbool
  unfold validConjunction at h
  refine ⟨h, ?_, ?_⟩
  · intro hnil
    rw [h, hnil]
    rfl
  · intro k e hone
    have hmem : (k, e) ∈ fields := by
      have : (k, e) ∈ fields.filter (fun kv => some kv.1 != excludeField) := by
        rw [hone]
        exact List.mem_singleton.mpr rfl
      exact (List.mem_filter.mp this).1
    obtain ⟨b, hb⟩ := hbool (k, e) hmem
    rw [h, hone]
    simp only [List.all_cons, List.all_nil, Bool.and_true] at hb ⊢
    rw [hb]
    cases b <;> rfl

/-- C6, witness: the two fields of `passwordMounted`, one valid and one not,
with `password` excluded and with no field excluded. -/
theorem isFormValid_eq_conjunction_witness :
    isFormValid passwordMounted.fields (some "password") = .ok (some false) ∧
    isFormValid passwordMounted.fields none = .ok (some false) ∧
    isFormValid passwordMounted.fields (some "confirmPassword") = .ok (some true) :=
  ⟨(isFormValid_eq_conjunction passwordMounted.fields (some "password") (by decide)).1,
   (isFormValid_eq_conjunction passwordMounted.fields none (by decide)).1,
   (isFormValid_eq_conjunction passwordMounted.fields (some "confirmPassword") (by decide)).1⟩

/-! ## Invariants of the reachable states -/

theorem mem_setEntry {α : Type} (l : List (String × α)) (k : String) (v : α)
    (kv : String × α) (h : kv ∈ setEntry l k v) : kv = (k, v) ∨ kv ∈ l := by
  induction l with
  | nil =>
    simp only [setEntry, List.mem_singleton] at h
    exact Or.inl h
  | cons hd tl ih =>
    obtain ⟨a, w⟩ := hd
    by_cases ha : a = k
    · simp only [setEntry, ha, if_true, List.mem_cons] at h
      rcases h with h1 | h1
      · exact Or.inl h1
      · exact Or.inr (List.mem_cons_of_mem _ h1)
    · simp only [setEntry, ha, if_false, List.mem_cons] at h
      rcases h with h1 | h1
      · exact Or.inr (by rw [h1]; exact List.mem_cons_self _ _)
      · rcases ih h1 with h2 | h2
        · exact Or.inl h2
        · exact Or.inr (List.mem_cons_of_mem _ h2)

theorem getEntry_isSome_of_mem_keys {α : Type} (l : List (String × α)) (k : String)
    (h : k ∈ l.map (fun kv => kv.1)) : (getEntry l k).isSome = true := by
  induction l with
  | nil => cases h
  | cons hd tl ih =>
    obtain ⟨a, w⟩ := hd
    by_cases ha : a = k
    · simp [getEntry, ha]
    · simp only [List.map_cons, List.mem_cons] at h
      rcases h with h1 | h1
      · exact absurd h1.symm ha
      · simp [getEntry, ha, ih h1]

theorem mem_keys_of_getEntry {α : Type} (l : List (String × α)) (k : String) (v : α)
    (h : getEntry l k = some v) : (k, v) ∈ l := by
  induction l with
  | nil => simp [getEntry] at h
  | cons hd tl ih =>
    obtain ⟨a, w⟩ := hd
    by_cases ha : a = k
    · simp only [getEntry, ha, if_true, Option.some.injEq] at h
      rw [ha, h]
      exact List.mem_cons_self _ _
    · simp only [getEntry, ha, if_false] at h
      exact List.mem_cons_of_mem _ (ih h)

/-- What `componentWillMount` establishes for every entry it builds, and keeps
for the entries of its accumulator, when it starts from the constructor state. -/
theorem mountFields_ok (options : Options) (names : List String) (acc : Fields)
    (calls : List TestCall) (r : Fields × List TestCall)
    (h : mountFields options [] names acc calls = .ok r)
    (hacc : ∀ kv ∈ acc, (∃ b, kv.2.valid = some b) ∧ kv.2.value.isObject = false) :
    (∀ kv ∈ r.1, (∃ b, kv.2.valid = some b) ∧ kv.2.value.isObject = false) ∧
    (∀ k, k ∈ names ∨ (getEntry acc k).isSome = true → (getEntry r.1 k).isSome = true) := by
  induction names generalizing acc calls with
  | nil =>
    simp only [mountFields, Except.ok.injEq] at h
    subst h
    refine ⟨hacc, ?_⟩
    intro k hk
    rcases hk with h1 | h1
    · cases h1
    · exact h1
  | cons n rest ih =>
    simp only [mountFields] at h
    cases ht : testField options [] 1 (some (boundSpec options n)) (.str "") true with
    | error e => simp [ht] at h
    | ok tr =>
      simp only [ht] at h
      have hacc2 : ∀ kv ∈ setEntry acc n
          { events := some n, valid := some (allTestsPassed tr.1),
            value := orEmptyString (getValue [] n), failProps := .undefined },
          (∃ b, kv.2.valid = some b) ∧ kv.2.value.isObject = false := by
        intro kv hkv
        rcases mem_setEntry _ _ _ _ hkv with h1 | h1
        · subst h1
          exact ⟨⟨_, rfl⟩, rfl⟩
        · exact hacc kv h1
      obtain ⟨h1, h2⟩ := ih _ _ h hacc2
      refine ⟨h1, ?_⟩
      intro k hk
      apply h2
      by_cases hkn : n = k
      · right
        simp [getEntry_setEntry, hkn]
      · rcases hk with h3 | h3
        · rcases List.mem_cons.mp h3 with h4 | h4
          · exact absurd h4.symm hkn
          · exact Or.inl h4
        · right
          simp [getEntry_setEntry, hkn, h3]

theorem mem_keys_of_getEntry_isSome {α : Type} (l : List (String × α)) (k : String)
    (h : (getEntry l k).isSome = true) : k ∈ l.map (fun kv => kv.1) := by
  cases hg : getEntry l k with
  | none => simp [hg] at h
  | some v => exact List.mem_map.mpr ⟨(k, v), mem_keys_of_getEntry l k v hg, rfl⟩

theorem mergeDeepField_pred (Q : FieldState → Prop) (fields : Fields) (k : String)
    (p : FieldPatch) (hf : ∀ kv ∈ fields, Q kv.2) (hnew : Q p.toEntry)
    (hmerge : ∀ e, Q e → Q (mergeDeepEntry e p)) :
    ∀ kv ∈ mergeDeepField fields k p, Q kv.2 := by
  induction fields with
  | nil =>
    intro kv hkv
    simp only [mergeDeepField, List.mem_singleton] at hkv
    subst hkv
    exact hnew
  | cons hd tl ih =>
    obtain ⟨a, e⟩ := hd
    have htl : ∀ kv ∈ tl, Q kv.2 := fun kv hkv => hf kv (List.mem_cons_of_mem _ hkv)
    intro kv hkv
    by_cases ha : a = k
    · simp only [mergeDeepField, ha, if_true, List.mem_cons] at hkv
      rcases hkv with h1 | h1
      · subst h1
        exact hmerge e (hf (a, e) (List.mem_cons_self _ _))
      · exact htl kv h1
    · simp only [mergeDeepField, ha, if_false, List.mem_cons] at hkv
      rcases hkv with h1 | h1
      · subst h1
        exact hf _ (List.mem_cons_self _ _)
      · exact ih htl kv h1

theorem mergeDeep_pred (Q : FieldState → Prop) (updates : List (String × FieldPatch))
    (fields : Fields) (hf : ∀ kv ∈ fields, Q kv.2)
    (hup : ∀ kp ∈ updates, Q kp.2.toEntry ∧ ∀ e, Q e → Q (mergeDeepEntry e kp.2)) :
    ∀ kv ∈ mergeDeep fields updates, Q kv.2 := by
  induction updates generalizing fields with
  | nil => simpa [mergeDeep] using hf
  | cons hd tl ih =>
    simp only [mergeDeep, List.foldl_cons]
    have h1 := hup hd (List.mem_cons_self _ _)
    exact ih _ (mergeDeepField_pred Q fields hd.1 hd.2 hf h1.1 h1.2)
      (fun kp hkp => hup kp (List.mem_cons_of_mem _ hkp))

theorem mergeDeep_keeps_keys (updates : List (String × FieldPatch)) (fields : Fields)
    (k : String) (h : (getEntry fields k).isSome = true) :
    (getEntry (mergeDeep fields updates) k).isSome = true := by
  induction updates generalizing fields with
  | nil => simpa [mergeDeep] using h
  | cons hd tl ih =>
    simp only [mergeDeep, List.foldl_cons]
    apply ih
    rw [getEntry_mergeDeepField]
    by_cases hk : hd.1 = k <;> simp [hk, h]

/-- An update without a `value` key keeps a stored value that is not an object. -/
theorem mergeDeep_keeps_plain_values (updates : List (String × FieldPatch)) (fields : Fields)
    (hf : ∀ kv ∈ fields, kv.2.value.isObject = false)
    (hup : ∀ kp ∈ updates, kp.2.value = none) :
    ∀ kv ∈ mergeDeep fields updates, kv.2.value.isObject = false := by
  apply mergeDeep_pred (fun e => e.value.isObject = false) updates fields hf
  intro kp hkp
  have hv := hup kp hkp
  refine ⟨by simp [FieldPatch.toEntry, hv, JSVal.isObject], ?_⟩
  intro e he
  simpa [mergeDeepEntry, hv] using he

theorem validityUpdates_value (tests : List TestType) :
    ∀ kp ∈ validityUpdates tests, kp.2.value = none := by
  unfold validityUpdates
  have hgen : ∀ (init : List (String × FieldPatch)), (∀ kp ∈ init, kp.2.value = none) →
      ∀ kp ∈ tests.foldl
        (fun acc t => setEntry acc (fieldKey t.fieldName) (validityPatch t)) init,
        kp.2.value = none := by
    induction tests with
    | nil => intro init hinit; simpa using hinit
    | cons t rest ih =>
      intro init hinit
      simp only [List.foldl_cons]
      apply ih
      intro kp hkp
      rcases mem_setEntry _ _ _ _ hkp with h1 | h1
      · subst h1
        rfl
      · exact hinit kp h1
  exact hgen [] (by simp)

theorem setInValue_pred (Q : FieldState → Prop) (fields : Fields) (k : String) (v : JSVal)
    (hk : (getEntry fields k).isSome = true) (hf : ∀ kv ∈ fields, Q kv.2)
    (hset : ∀ e, Q e → Q { e with value := v }) :
    ∀ kv ∈ setInValue fields k v, Q kv.2 := by
  induction fields with
  | nil => simp [getEntry] at hk
  | cons hd tl ih =>
    obtain ⟨a, e⟩ := hd
    intro kv hkv
    by_cases ha : a = k
    · simp only [setInValue, ha, if_true, List.mem_cons] at hkv
      rcases hkv with h1 | h1
      · subst h1
        exact hset e (hf (a, e) (List.mem_cons_self _ _))
      · exact hf kv (List.mem_cons_of_mem _ h1)
    · simp only [setInValue, ha, if_false, List.mem_cons] at hkv
      simp only [getEntry, ha, if_false] at hk
      rcases hkv with h1 | h1
      · subst h1
        exact hf _ (List.mem_cons_self _ _)
      · exact ih hk (fun kv hkv => hf kv (List.mem_cons_of_mem _ hkv)) kv h1

theorem getEntry_setInValue_isSome (fields : Fields) (k k2 : String) (v : JSVal)
    (h : (getEntry fields k2).isSome = true) :
    (getEntry (setInValue fields k v) k2).isSome = true := by
  induction fields with
  | nil => simp [getEntry] at h
  | cons hd tl ih =>
    obtain ⟨a, e⟩ := hd
    by_cases ha : a = k
    · subst ha
      by_cases h2 : a = k2
      · simp [setInValue, getEntry, h2]
      · simp only [getEntry, h2, if_false] at h
        simp [setInValue, getEntry, h2, h]
    · by_cases h2 : a = k2
      · subst h2
        simp [setInValue, getEntry, ha]
      · simp only [getEntry, h2, if_false] at h
        simp [setInValue, getEntry, ha, h2, ih h]

theorem validConjunction_setInValue (fields : Fields) (k : String) (v : JSVal)
    (excludeField : Option String) (hk : (getEntry fields k).isSome = true) :
    validConjunction (setInValue fields k v) excludeField =
      validConjunction fields excludeField := by
  induction fields with
  | nil => simp [getEntry] at hk
  | cons hd tl ih =>
    obtain ⟨a, e⟩ := hd
    by_cases ha : a = k
    · simp only [setInValue, ha, if_true, validConjunction, List.filter_cons]
      by_cases hx : (some k != excludeField) = true <;> simp [hx]
    · simp only [getEntry, ha, if_false] at hk
      have ih2 := ih hk
      simp only [validConjunction] at ih2
      simp only [setInValue, ha, if_false, validConjunction, List.filter_cons]
      by_cases hx : (some a != excludeField) = true <;> simp [hx, ih2]

theorem isFormValid_eq_of_invariant_fields (fields : Fields)
    (h : ∀ kv ∈ fields, ∃ b, kv.2.valid = some b) (v : Option Bool)
    (hv : isFormValid fields none = .ok v) : v = some (validConjunction fields none) := by
  rw [isFormValid_of_boolean fields none h] at hv
  simp only [Except.ok.injEq] at hv
  exact hv.symm

/-- What a returning `componentWillMount` went through: the checks passed, the
loop over the fields returned and the form validity was set. -/
theorem componentWillMount_ok (options : Options) (s : State) (calls : List TestCall)
    (h : componentWillMount options initialState = .ok (s, calls)) :
    ∃ mounted v, runChecks options = .ok () ∧
      mountFields options [] (options.fields.map (fun kv => kv.1)) [] [] = .ok mounted ∧
      isFormValid mounted.1 none = .ok v ∧
      s = { fields := mounted.1, form := { touched := false, valid := v },
            defaultsSet := false } := by
  simp only [componentWillMount, initialState, setFormValidity] at h
  cases hc : runChecks options with
  | error e => simp [hc] at h
  | ok u =>
    simp only [hc] at h
    cases hm : mountFields options [] (options.fields.map (fun kv => kv.1)) [] [] with
    | error e => simp [hm] at h
    | ok mounted =>
      simp only [hm] at h
      cases hv : isFormValid mounted.1 none with
      | error e => simp [hv] at h
      | ok v =>
        simp only [hv, Except.ok.injEq, Prod.mk.injEq] at h
        exact ⟨mounted, v, rfl, rfl, hv, h.1.symm⟩

theorem invariant_mount (options : Options) (s : State) (calls : List TestCall)
    (h : componentWillMount options initialState = .ok (s, calls)) : Invariant options s := by
  obtain ⟨mounted, v, _, hm, hv, hs⟩ := componentWillMount_ok options s calls h
  subst hs
  obtain ⟨h1, h2⟩ := mountFields_ok options _ [] [] mounted hm (by simp)
  exact
    { boolean := fun kv hkv => (h1 kv hkv).1
      configured := fun f hf => h2 f (Or.inl (mem_keys_of_getEntry_isSome _ _ hf))
      formValid := hv
      unseeded := fun _ kv hkv => (h1 kv hkv).2 }

theorem invariant_change (options : Options) (s : State) (f : String) (v : String)
    (hs : Invariant options s) (hf : (getEntry options.fields f).isSome = true) :
    Invariant options (onChange (boundSpec options f) v s) := by
  have hname : fieldKey (boundSpec options f).name = f := by
    unfold boundSpec
    cases getEntry options.fields f <;> rfl
  have hk := hs.configured f hf
  have hb : ∀ kv ∈ setInValue s.fields f (.str v), ∃ b, kv.2.valid = some b :=
    setInValue_pred (fun e => ∃ b, e.valid = some b) s.fields f _ hk hs.boolean
      (fun e he => he)
  simp only [onChange, hname]
  exact
    { boolean := hb
      configured := fun g hg => getEntry_setInValue_isSome _ _ _ _ (hs.configured g hg)
      formValid := by
        rw [isFormValid_of_boolean _ none hb, validConjunction_setInValue _ _ _ _ hk]
        have := hs.formValid
        rw [isFormValid_of_boolean _ none hs.boolean] at this
        exact this
      unseeded := fun hd =>
        setInValue_pred (fun e => e.value.isObject = false) s.fields f _ hk (hs.unseeded hd)
          (fun _ _ => rfl) }

theorem onBlur_ok_run (options : Options) (fuel : Nat) (spec : FieldSpec) (v : String)
    (s s1 : State) (calls : List TestCall)
    (h : onBlur options fuel spec v s = .ok (s1, calls)) :
    ∃ res, testField options s.fields fuel (some spec) (.str v) false = .ok (res, calls) := by
  simp only [onBlur] at h
  cases ht : testField options s.fields fuel (some spec) (.str v) false with
  | error e => simp [ht] at h
  | ok completed =>
    simp only [ht] at h
    cases hsv : setFieldsValidity spec completed.1 s with
    | error e => simp [hsv] at h
    | ok s2 =>
      simp only [hsv, Except.ok.injEq, Prod.mk.injEq] at h
      exact ⟨completed.1, by rw [← h.2]⟩

theorem invariant_blur (options : Options) (s s1 : State) (fuel : Nat) (spec : FieldSpec)
    (v : String) (calls : List TestCall) (hs : Invariant options s)
    (h : onBlur options fuel spec v s = .ok (s1, calls)) : Invariant options s1 := by
  obtain ⟨res, hrun⟩ := onBlur_ok_run _ _ _ _ _ _ _ h
  obtain ⟨s2, h1, h2, _, h4, h5, _, h7, h8⟩ :=
    onBlur_of_boolean options fuel spec v s res calls hs.boolean hrun
  rw [h1] at h
  simp only [Except.ok.injEq, Prod.mk.injEq, and_true] at h
  subst h
  exact
    { boolean := h4
      configured := fun g hg => by
        rw [h8]
        exact mergeDeep_keeps_keys _ _ _ (hs.configured g hg)
      formValid := by
        by_cases hres : res = []
        · rw [h2 hres]
          exact hs.formValid
        · rw [h5 hres]
          exact isFormValid_of_boolean _ none h4
      unseeded := fun hd => by
        rw [h8]
        exact mergeDeep_keeps_plain_values _ _ (hs.unseeded (by rw [← h7]; exact hd))
          (validityUpdates_value res) }

theorem invariant_seed (options : Options) (s s1 : State) (d : List (String × JSVal))
    (calls : List TestCall) (hs : Invariant options s)
    (h : setDefaultValues options d s = .ok (s1, calls)) : Invariant options s1 := by
  simp only [setDefaultValues] at h
  cases hd : s.defaultsSet with
  | true =>
    simp only [hd, Bool.not_true, Bool.false_eq_true, if_false, Except.ok.injEq,
      Prod.mk.injEq] at h
    rw [← h.1]
    exact hs
  | false =>
    simp only [hd, Bool.not_false, if_true] at h
    cases hseed : seedDefaults options s.fields d (d.map (fun kv => kv.1)) [] [] with
    | error e => simp [hseed] at h
    | ok seeded =>
      simp only [hseed] at h
      cases hv : isFormValid (mergeDeep s.fields seeded.1) none with
      | error e => simp [hv] at h
      | ok v =>
        simp only [hv, Except.ok.injEq, Prod.mk.injEq] at h
        obtain ⟨h1, _⟩ := h
        subst h1
        exact
          { boolean := mergeDeep_boolean _ _ hs.boolean
            configured := fun g hg => mergeDeep_keeps_keys _ _ _ (hs.configured g hg)
            formValid := hv
            unseeded := fun hd2 => by simp at hd2 }

theorem invariant_merge (options : Options) (s s1 : State)
    (updates : List (String × FieldPatch)) (hs : Invariant options s)
    (hup : ∀ kp ∈ updates, kp.2.value = none)
    (h : setFormValidity { s with fields := mergeDeep s.fields updates } = .ok s1) :
    Invariant options s1 := by
  simp only [setFormValidity] at h
  cases hv : isFormValid (mergeDeep s.fields updates) none with
  | error e => simp [hv] at h
  | ok v =>
    simp only [hv, Except.ok.injEq] at h
    subst h
    exact
      { boolean := mergeDeep_boolean _ _ hs.boolean
        configured := fun g hg => mergeDeep_keeps_keys _ _ _ (hs.configured g hg)
        formValid := hv
        unseeded := fun hd => mergeDeep_keeps_plain_values _ _ (hs.unseeded hd) hup }

theorem invariant_mark (options : Options) (s s1 : State) (fieldName : String) (valid : Bool)
    (failProps : JSVal) (quietly : Bool) (hs : Invariant options s)
    (h : markFieldAsValid fieldName valid failProps quietly s = .ok s1) :
    Invariant options s1 := by
  apply invariant_merge options s s1 _ hs _ h
  intro kp hkp
  simp only [List.mem_singleton] at hkp
  subst hkp
  rfl

theorem invariant_of_reachable (options : Options) (s : State) (h : Reachable options s) :
    Invariant options s := by
  induction h with
  | mount s calls h => exact invariant_mount options s calls h
  | change s f v _ hf ih => exact invariant_change options s f v ih hf
  | blur s s1 fuel f v calls _ _ h ih => exact invariant_blur options s s1 fuel _ v calls ih h
  | focus s _ ih =>
    exact
      { boolean := ih.boolean
        configured := ih.configured
        formValid := ih.formValid
        unseeded := ih.unseeded }
  | seed s s1 d calls _ h ih => exact invariant_seed options s s1 d calls ih h
  | mark s s1 n b fp q _ h ih => exact invariant_mark options s s1 n b fp q ih h

theorem validConjunction_none (fields : Fields) :
    validConjunction fields none = fields.all (fun kv => kv.2.valid == some true) := by
  unfold validConjunction
  induction fields with
  | nil => rfl
  | cons hd tl ih =>
    have hf : (hd :: tl).filter (fun kv => some kv.1 != (none : Option String)) =
        hd :: tl.filter (fun kv => some kv.1 != (none : Option String)) := by
      simp [List.filter_cons]
    rw [hf, List.all_cons, List.all_cons, ih]

/-! ## C7: form validity is consistent with the fields -/

/-- C7: in every state reachable from `componentWillMount` by `onChange`,
`onBlur`, `onFocus`, `setDefaultValues` and `markFieldAsValid`, `form.valid` is
what `isFormValid()` returns on the current fields, the conjunction of their
`valid` flags. -/
theorem form_valid_consistent (options : Options) (s : State) (h : Reachable options s) :
    isFormValid s.fields none = .ok s.form.valid ∧
    s.form.valid = some (s.fields.all (fun kv => kv.2.valid == some true)) := by
  have hinv := invariant_of_reachable options s h
  refine ⟨hinv.formValid, ?_⟩
  have h2 := isFormValid_eq_of_invariant_fields s.fields hinv.boolean _ hinv.formValid
  rw [h2, validConjunction_none]

/-- C7, witness: the `passwordOptions` form after mount, a change of
`confirmPassword` and a blur of `password` that cascades to `confirmPassword`. -/
theorem form_valid_consistent_witness :
    Reachable passwordOptions passwordBlurred ∧
    isFormValid passwordBlurred.fields none = .ok passwordBlurred.form.valid ∧
    passwordBlurred.form.valid =
      some (passwordBlurred.fields.all (fun kv => kv.2.valid == some true)) :=
  have hreach : Reachable passwordOptions passwordBlurred :=
    Reachable.blur
      (onChange (boundSpec passwordOptions "confirmPassword") "abc" passwordMounted)
      passwordBlurred 2 "password" "secret"
      [{ rule := alwaysRule, value := .str "secret" },
       { rule := requiredRule, value := .str "abc" }]
      (Reachable.change passwordMounted "confirmPassword" "abc"
        (Reachable.mount passwordMounted
          [{ rule := alwaysRule, value := .str "" }, { rule := requiredRule, value := .str "" }]
          rfl)
        rfl)
      rfl rfl
  ⟨hreach, form_valid_consistent passwordOptions passwordBlurred hreach⟩

/-! ## C8: failure properties of the blurred field -/

theorem deepMerger_of_not_object (existing v : JSVal) (h : existing.isObject = false) :
    deepMerger existing v = v := by
  cases v with
  | obj p =>
    cases existing with
    | obj e => simp [JSVal.isObject] at h
    | undefined => simp [deepMerger]
    | bool b => simp [deepMerger]
    | str s => simp [deepMerger]
  | undefined => simp [deepMerger]
  | bool b => simp [deepMerger]
  | str s => simp [deepMerger]

theorem applyPatch_failProps (e0 : FieldState) (p : FieldPatch) (v : JSVal)
    (h : p.failProps = some v) :
    (applyPatch (some e0) p).failProps = deepMerger e0.failProps v := by
  simp [applyPatch, mergeDeepEntry, h]

theorem lastResultFor_cons_cases (k : String) (t : TestType) (l : List TestType)
    (hk : fieldKey t.fieldName = k) :
    ∃ y, lastResultFor k (t :: l) = some y ∧ (y = t ∨ y ∈ l) := by
  cases hl : lastResultFor k l with
  | some r => exact ⟨r, by simp [lastResultFor, hl], Or.inr (lastResultFor_mem _ _ _ hl).1⟩
  | none => exact ⟨t, by simp [lastResultFor, hl, hk], Or.inl rfl⟩

/-- C8 (as amended): for a configured field `f` with a non-empty rule list that
has an entry, in a state whose `valid` flags are booleans, and a value `v` on
which `testField` returns, `onBlur(f, v)` returns and the stored `failProps` of
`f` is: when some rule fails, undefined if the first failing rule is quiet and
otherwise the deep merge of the `failProps` held before with those of the first
failing rule (these themselves when the `failProps` held before are not an
object); when all rules pass, undefined. -/
theorem onBlur_failProps (options : Options) (s : State) (fuel : Nat)
    (f : String) (spec : FieldSpec) (r : Rule) (rs : List Rule) (v : String)
    (e0 : FieldState) (res : List TestType) (calls : List TestCall)
    (hcfg : getEntry options.fields f = some spec)
    (htests : spec.tests = some (r :: rs))
    (hentry : getEntry s.fields f = some e0)
    (hbool : ∀ kv ∈ s.fields, ∃ b, kv.2.valid = some b)
    (hrun : testField options s.fields fuel (some (boundSpec options f)) (.str v) false =
      .ok (res, calls)) :
    ∃ s1 e, onBlur options fuel (boundSpec options f) v s = .ok (s1, calls) ∧
      getEntry s1.fields f = some e ∧
      (∀ t, (r :: rs).find? (fun x => !x.test (.str v) s.fields) = some t →
        e.failProps =
          (if t.quiet = some true then .undefined else deepMerger e0.failProps t.failProps) ∧
        (t.quiet ≠ some true → e0.failProps.isObject = false →
          e.failProps = t.failProps)) ∧
      (allRulesPass (.str v) s.fields (r :: rs) = true → e.failProps = .undefined) := by
  obtain ⟨s1, h1, _, h3, _⟩ := onBlur_of_boolean options fuel _ v s res calls hbool hrun
  obtain ⟨tests, casc, cc, ht, hr, hq, hnone⟩ := testField_ok _ _ _ _ _ _ _ hrun
  have hb : (boundSpec options f).tests = some (r :: rs) := by
    simp [boundSpec, hcfg, htests]
  have hn : (boundSpec options f).name = some f := by
    simp [boundSpec, hcfg]
  rw [hb] at ht
  cases ht
  obtain ⟨x, _, hx, hfind, _⟩ :=
    runTests_results (boundSpec options f).name (.str v) s.fields r rs [] []
  simp only [Prod.mk.injEq] at hr
  have hres : res = completedTest x (allRulesPass (.str v) s.fields (r :: rs)) (some f) :: casc := by
    rw [hr.1, hx, hn]
    rfl
  obtain ⟨y, hy, hycases⟩ := lastResultFor_cons_cases f
    (completedTest x (allRulesPass (.str v) s.fields (r :: rs)) (some f)) casc rfl
  have h4 := h3 f
  rw [hres, hy, hentry] at h4
  refine ⟨s1, _, h1, h4, ?_, ?_⟩
  · intro t hfail
    have hall : allRulesPass (.str v) s.fields (r :: rs) = false := by
      have hm := List.find?_some hfail
      have hmem := List.mem_of_find?_eq_some hfail
      simp only [Bool.not_eq_true', ] at hm
      cases hp : allRulesPass (.str v) s.fields (r :: rs) with
      | false => rfl
      | true =>
        simp only [allRulesPass, List.all_eq_true] at hp
        rw [hp t hmem] at hm
        cases hm
    have hxt : x = t := by
      have := hfind hall
      rw [hfail] at this
      exact (Option.some.inj this).symm
    have hcasc := (hnone (Or.inr (Or.inl hall))).1
    subst hxt
    rw [hcasc] at hycases
    have hyeq : y = completedTest x (allRulesPass (.str v) s.fields (r :: rs)) (some f) := by
      rcases hycases with h5 | h5
      · exact h5
      · cases h5
    have hstored : (applyPatch (some e0) (validityPatch y)).failProps =
        (if x.quiet = some true then .undefined else deepMerger e0.failProps x.failProps) := by
      by_cases hqx : x.quiet = some true
      · rw [applyPatch_failProps e0 _ .undefined
          (by simp [validityPatch, hyeq, completedTest, hall, hqx])]
        simp [hqx, deepMerger_undefined]
      · rw [applyPatch_failProps e0 _ x.failProps
          (by simp [validityPatch, hyeq, completedTest, hall, hqx])]
        simp [hqx]
    refine ⟨hstored, ?_⟩
    intro hqx hobj
    rw [hstored]
    simp [hqx, deepMerger_of_not_object _ _ hobj]
  · intro hall
    apply applyPatch_failProps_undefined
    rcases hycases with h5 | h5
    · simp [validityPatch, h5, completedTest, hall]
    · simp [validityPatch, hq y h5]

/-- C8, witness: `age` of `ageOptions`, holding the failure properties of its
first rule, blurred with "abc", on which the second rule is the first to fail. -/
theorem onBlur_failProps_witness :
    ∃ s1 e, onBlur ageOptions 1 (boundSpec ageOptions "age") "abc" ageBlurred =
        .ok (s1, [{ rule := hintRule, value := .str "abc" },
                  { rule := neverRule, value := .str "abc" }]) ∧
      getEntry s1.fields "age" = some e ∧
      (∀ t, [hintRule, neverRule].find? (fun x => !x.test (.str "abc") ageBlurred.fields) =
          some t →
        e.failProps =
          (if t.quiet = some true then .undefined
            else deepMerger hintRule.failProps t.failProps) ∧
        (t.quiet ≠ some true → hintRule.failProps.isObject = false →
          e.failProps = t.failProps)) ∧
      (allRulesPass (.str "abc") ageBlurred.fields [hintRule, neverRule] = true →
        e.failProps = .undefined) :=
  onBlur_failProps ageOptions ageBlurred 1 "age"
    { name := none, tests := some [hintRule, neverRule], alsoTest := none }
    hintRule [neverRule] "abc"
    { events := some "age", valid := some false, value := .str "",
      failProps := hintRule.failProps }
    [completedTest neverRule false (some "age")]
    [{ rule := hintRule, value := .str "abc" }, { rule := neverRule, value := .str "abc" }]
    rfl rfl rfl (by decide) rfl

/-- C8, counterexample: (1) with `ageOptions` mounted, `age` is blurred with the
empty string, which stores the `failProps` of its first rule, and then with
"abc", on which the second rule, not quiet, is the first to fail: the stored
`failProps` keep the `hint` of the first rule next to the `errorText` of the
second, and so differ from the `failProps` of the failing rule. (2) `note` has
an empty rule list; after `markFieldAsValid('note', false, { failProps })`, a
blur of `note` leaves those `failProps` in place, although all of its rules
pass. -/
theorem onBlur_failProps_keeps_previous :
    stateOf (componentWillMount ageOptions initialState) = some ageMounted ∧
    stateOf (onBlur ageOptions 1 (boundSpec ageOptions "age") "" ageMounted) =
      some ageBlurred ∧
    [hintRule, neverRule].find? (fun x => !x.test (.str "abc") ageBlurred.fields) =
      some neverRule ∧
    neverRule.quiet = none ∧
    neverRule.failProps = .obj (.cons "errorText" (.str "rejected") .nil) ∧
    (stateOf (onBlur ageOptions 1 (boundSpec ageOptions "age") "abc" ageBlurred)).map
        (fun s1 => (getEntry s1.fields "age").map (fun e => e.failProps)) =
      some (some (.obj (.cons "errorText" (.str "rejected")
        (.cons "hint" (.str "fill in") .nil)))) ∧
    rulesOf ageOptions "note" = [] ∧
    allRulesPass (.str "x") ageMounted.fields (rulesOf ageOptions "note") = true ∧
    ((markFieldAsValid "note" false (.obj (.cons "errorText" (.str "custom") .nil)) false
        ageMounted).toOption.bind
      (fun s1 => stateOf (onBlur ageOptions 1 (boundSpec ageOptions "note") "x" s1))).map
        (fun s2 => (getEntry s2.fields "note").map (fun e => e.failProps)) =
      some (some (.obj (.cons "errorText" (.str "custom") .nil))) := by
  refine ⟨by decide, by decide, rfl, rfl, rfl, by decide, rfl, rfl, by decide⟩

/-! ## Seeding of default values -/

theorem allTestsPassed_runTests (name : Option String) (value : JSVal) (snapshot : Fields)
    (tests : List Rule) :
    allTestsPassed (runTests name value snapshot tests [] []).1 =
      allRulesPass value snapshot tests := by
  cases tests with
  | nil => rfl
  | cons t rest =>
    obtain ⟨r, _, h1, _⟩ := runTests_results name value snapshot t rest [] []
    rw [h1]
    simp [allTestsPassed, completedTest]

theorem seedDefaults_eq (options : Options) (fields : Fields) (d : List (String × JSVal))
    (names : List String) (defaults : List (String × FieldPatch)) (calls : List TestCall) :
    seedDefaults options fields d names defaults calls =
      .ok (names.foldl (fun acc n => setEntry acc n (seedPatch options fields d n)) defaults,
           calls ++ names.flatMap (seedCalls options fields d)) := by
  induction names generalizing defaults calls with
  | nil => simp [seedDefaults]
  | cons n rest ih =>
    simp only [seedDefaults, List.foldl_cons, List.flatMap_cons]
    cases hf : getEntry options.fields n with
    | none =>
      simp only [Option.bind_none, ih]
      simp [seedPatch, seedCalls, rulesOf, hf, allTestsPassed, allRulesPass, evaluatedRules,
        defaultOf]
    | some spec =>
      cases ht : spec.tests with
      | none =>
        simp only [Option.bind_some, ht, ih]
        simp [seedPatch, seedCalls, rulesOf, hf, ht, allTestsPassed, allRulesPass,
          evaluatedRules, defaultOf]
      | some tests =>
        simp only [Option.bind_some, ht, testField_initial options fields 0 spec tests _ ht, ih]
        simp [seedPatch, seedCalls, rulesOf, hf, ht, allTestsPassed_runTests, runTests_calls,
          defaultOf]

theorem getEntry_foldl_setEntry {α : Type} (g : String → α) (names : List String)
    (init : List (String × α)) (k : String) :
    getEntry (names.foldl (fun acc n => setEntry acc n (g n)) init) k =
      if k ∈ names then some (g k) else getEntry init k := by
  induction names generalizing init with
  | nil => simp
  | cons n rest ih =>
    simp only [List.foldl_cons, ih, getEntry_setEntry, List.mem_cons]
    by_cases h1 : k ∈ rest
    · simp [h1]
    · by_cases h2 : n = k
      · simp [h1, h2]
      · have h3 : ¬ k = n := fun h => h2 h.symm
        simp [h1, h2, h3]

theorem nodup_foldl_setEntry {α : Type} (g : String → α) (names : List String)
    (init : List (String × α)) (h : (init.map (fun kv => kv.1)).Nodup) :
    ((names.foldl (fun acc n => setEntry acc n (g n)) init).map (fun kv => kv.1)).Nodup := by
  induction names generalizing init with
  | nil => simpa using h
  | cons n rest ih =>
    simp only [List.foldl_cons]
    exact ih _ (keys_setEntry_nodup init _ _ h)

/-- What the first `setDefaultValues` does on a state whose `valid` flags are
booleans and whose stored values are not objects. -/
theorem setDefaultValues_first (options : Options) (d : List (String × JSVal)) (s : State)
    (hd : s.defaultsSet = false)
    (hbool : ∀ kv ∈ s.fields, ∃ b, kv.2.valid = some b)
    (hplain : ∀ kv ∈ s.fields, kv.2.value.isObject = false) :
    ∃ s1, setDefaultValues options d s =
        .ok (s1, (d.map (fun kv => kv.1)).flatMap (seedCalls options s.fields d)) ∧
      s1.defaultsSet = true ∧ s1.form.touched = s.form.touched ∧
      isFormValid s1.fields none = .ok s1.form.valid ∧
      (∀ n ∈ d.map (fun kv => kv.1), ∃ e, getEntry s1.fields n = some e ∧
        e.value = defaultOf d n ∧
        e.valid = some (allRulesPass (defaultOf d n) s.fields (rulesOf options n))) ∧
      (∀ k, k ∉ d.map (fun kv => kv.1) → getEntry s1.fields k = getEntry s.fields k) := by
  have hseed := seedDefaults_eq options s.fields d (d.map (fun kv => kv.1)) [] []
  have hnd := nodup_foldl_setEntry (seedPatch options s.fields d) (d.map (fun kv => kv.1)) []
    (by simp)
  generalize hdef : (d.map (fun kv => kv.1)).foldl
    (fun acc n => setEntry acc n (seedPatch options s.fields d n)) [] = defaults at hseed hnd
  have hb := mergeDeep_boolean defaults s.fields hbool
  have hget : ∀ k, getEntry defaults k =
      if k ∈ d.map (fun kv => kv.1) then some (seedPatch options s.fields d k) else none := by
    intro k
    rw [← hdef, getEntry_foldl_setEntry]
    rfl
  refine ⟨{ fields := mergeDeep s.fields defaults,
            form := { s.form with valid := some (validConjunction (mergeDeep s.fields defaults) none) },
            defaultsSet := true }, ?_, rfl, rfl, ?_, ?_, ?_⟩
  · simp [setDefaultValues, hd, hseed, isFormValid_of_boolean _ none hb]
  · exact isFormValid_of_boolean _ none hb
  · intro n hn
    have h1 := getEntry_mergeDeep defaults s.fields n hnd
    rw [hget n] at h1
    simp only [hn, if_true] at h1
    refine ⟨_, h1, ?_, ?_⟩
    · cases he : getEntry s.fields n with
      | none => rfl
      | some e0 =>
        have hmem := mem_keys_of_getEntry s.fields n e0 he
        have hp := hplain _ hmem
        simp only [applyPatch, mergeDeepEntry, seedPatch]
        exact deepMerger_of_not_object _ _ hp
    · rw [applyPatch_valid]
      rfl
  · intro k hk
    have h1 := getEntry_mergeDeep defaults s.fields k hnd
    rw [hget k] at h1
    simpa [hk] using h1

theorem setDefaultValues_returns (options : Options) (d : List (String × JSVal)) (s : State)
    (hbool : ∀ kv ∈ s.fields, ∃ b, kv.2.valid = some b) :
    ∃ s1 calls, setDefaultValues options d s = .ok (s1, calls) := by
  cases hd : s.defaultsSet with
  | true => exact ⟨s, [], by simp [setDefaultValues, hd]⟩
  | false =>
    have hseed := seedDefaults_eq options s.fields d (d.map (fun kv => kv.1)) [] []
    have hb := mergeDeep_boolean
      ((d.map (fun kv => kv.1)).foldl
        (fun acc n => setEntry acc n (seedPatch options s.fields d n)) []) s.fields hbool
    generalize hdef : (d.map (fun kv => kv.1)).foldl
      (fun acc n => setEntry acc n (seedPatch options s.fields d n)) [] = defaults at hseed hb
    exact ⟨{ fields := mergeDeep s.fields defaults,
             form := { s.form with
               valid := some (validConjunction (mergeDeep s.fields defaults) none) },
             defaultsSet := true },
      (d.map (fun kv => kv.1)).flatMap (seedCalls options s.fields d),
      by simp [setDefaultValues, hd, hseed, isFormValid_of_boolean _ none hb]⟩

theorem setDefaultValues_again (options : Options) (d1 d2 : List (String × JSVal))
    (s s1 : State) (calls : List TestCall)
    (h : setDefaultValues options d1 s = .ok (s1, calls)) :
    setDefaultValues options d2 s1 = .ok (s1, []) := by
  have hset : s1.defaultsSet = true := by
    simp only [setDefaultValues] at h
    cases hd : s.defaultsSet with
    | true =>
      simp only [hd, Bool.not_true, Bool.false_eq_true, if_false, Except.ok.injEq,
        Prod.mk.injEq] at h
      rw [← h.1]
      exact hd
    | false =>
      simp only [hd, Bool.not_false, if_true] at h
      cases hseed : seedDefaults options s.fields d1 (d1.map (fun kv => kv.1)) [] [] with
      | error e => simp [hseed] at h
      | ok seeded =>
        simp only [hseed] at h
        cases hv : isFormValid (mergeDeep s.fields seeded.1) none with
        | error e => simp [hv] at h
        | ok v =>
          simp only [hv, Except.ok.injEq, Prod.mk.injEq] at h
          rw [← h.1]
  simp [setDefaultValues, hset]

/-! ## C9: `setDefaultValues` is idempotent -/

/-- C9: whenever `setDefaultValues(d1)` returns, a following
`setDefaultValues(d2)` returns the same state and evaluates no rule; the first
call returns on every state whose `valid` flags are booleans; and when the
defaults were not set before and no stored value is an object, the values of the
fields named in `d1` are, after both calls, those of `d1`. -/
theorem setDefaultValues_idempotent (options : Options) (s : State)
    (d1 d2 : List (String × JSVal)) :
    (∀ s1 calls, setDefaultValues options d1 s = .ok (s1, calls) →
      setDefaultValues options d2 s1 = .ok (s1, [])) ∧
    ((∀ kv ∈ s.fields, ∃ b, kv.2.valid = some b) →
      ∃ s1 calls, setDefaultValues options d1 s = .ok (s1, calls) ∧
        setDefaultValues options d2 s1 = .ok (s1, []) ∧
        (s.defaultsSet = false → (∀ kv ∈ s.fields, kv.2.value.isObject = false) →
          ∀ n ∈ d1.map (fun kv => kv.1), getValue s1.fields n = defaultOf d1 n)) := by
  refine ⟨fun s1 calls h => setDefaultValues_again options d1 d2 s s1 calls h, ?_⟩
  intro hbool
  obtain ⟨s1, calls, h1⟩ := setDefaultValues_returns options d1 s hbool
  refine ⟨s1, calls, h1, setDefaultValues_again options d1 d2 s s1 calls h1, ?_⟩
  intro hd hplain n hn
  obtain ⟨s2, h2, _, _, _, h5, _⟩ := setDefaultValues_first options d1 s hd hbool hplain
  rw [h1] at h2
  simp only [Except.ok.injEq, Prod.mk.injEq] at h2
  obtain ⟨e, he, hv, _⟩ := h5 n hn
  rw [← h2.1] at he
  simp [getValue, he, hv]

/-- C9, witness: the mounted `passwordOptions` form seeded with "abc" for
`confirmPassword` and then with other values for both fields. -/
theorem setDefaultValues_idempotent_witness :
    ∃ s1 calls, setDefaultValues passwordOptions [("confirmPassword", .str "abc")]
        passwordMounted = .ok (s1, calls) ∧
      setDefaultValues passwordOptions
        [("confirmPassword", .str "other"), ("password", .str "secret")] s1 = .ok (s1, []) ∧
      (passwordMounted.defaultsSet = false →
        (∀ kv ∈ passwordMounted.fields, kv.2.value.isObject = false) →
        ∀ n ∈ [("confirmPassword", JSVal.str "abc")].map (fun kv => kv.1),
          getValue s1.fields n = defaultOf [("confirmPassword", .str "abc")] n) :=
  (setDefaultValues_idempotent passwordOptions passwordMounted
    [("confirmPassword", .str "abc")]
    [("confirmPassword", .str "other"), ("password", .str "secret")]).2 (by decide)

/-! ## C10: what the first `setDefaultValues` stores -/

/-- C10: on a reachable state in which the defaults were not set yet,
`setDefaultValues(d)` returns; every field named in `d` then stores its value of
`d` and has `valid` true exactly when every rule configured for it passes on
that value (against the fields before the call; true when it has no rules); the
rule tests called are those of the named fields' own rules only, each list up to
its first failing rule; a field not named in `d` keeps its entry; and
`form.valid` is what `isFormValid()` returns on the resulting fields. -/
theorem setDefaultValues_seeds_fields (options : Options) (s : State)
    (d : List (String × JSVal)) (hreach : Reachable options s)
    (hd : s.defaultsSet = false) :
    ∃ s1, setDefaultValues options d s =
        .ok (s1, (d.map (fun kv => kv.1)).flatMap (fun n =>
          (evaluatedRules (defaultOf d n) s.fields (rulesOf options n)).map
            (fun t => { rule := t, value := defaultOf d n }))) ∧
      (∀ n ∈ d.map (fun kv => kv.1), ∃ e, getEntry s1.fields n = some e ∧
        e.value = defaultOf d n ∧
        e.valid = some (allRulesPass (defaultOf d n) s.fields (rulesOf options n)) ∧
        (rulesOf options n = [] → e.valid = some true)) ∧
      (∀ k, k ∉ d.map (fun kv => kv.1) → getEntry s1.fields k = getEntry s.fields k) ∧
      isFormValid s1.fields none = .ok s1.form.valid ∧
      s1.defaultsSet = true := by
  have hinv := invariant_of_reachable options s hreach
  obtain ⟨s1, h1, h2, _, h4, h5, h6⟩ :=
    setDefaultValues_first options d s hd hinv.boolean (hinv.unseeded hd)
  refine ⟨s1, h1, ?_, h6, h4, h2⟩
  intro n hn
  obtain ⟨e, he, hv, hval⟩ := h5 n hn
  refine ⟨e, he, hv, hval, ?_⟩
  intro hnil
  rw [hval, hnil]
  rfl

/-- C10, witness: the mounted `passwordOptions` form seeded with "abc" for
`confirmPassword`. -/
theorem setDefaultValues_seeds_fields_witness :
    ∃ s1, setDefaultValues passwordOptions [("confirmPassword", .str "abc")] passwordMounted =
        .ok (s1, ([("confirmPassword", JSVal.str "abc")].map (fun kv => kv.1)).flatMap (fun n =>
          (evaluatedRules (defaultOf [("confirmPassword", .str "abc")] n)
            passwordMounted.fields (rulesOf passwordOptions n)).map
            (fun t => { rule := t, value := defaultOf [("confirmPassword", .str "abc")] n }))) ∧
      (∀ n ∈ [("confirmPassword", JSVal.str "abc")].map (fun kv => kv.1),
        ∃ e, getEntry s1.fields n = some e ∧
        e.value = defaultOf [("confirmPassword", .str "abc")] n ∧
        e.valid = some (allRulesPass (defaultOf [("confirmPassword", .str "abc")] n)
          passwordMounted.fields (rulesOf passwordOptions n)) ∧
        (rulesOf passwordOptions n = [] → e.valid = some true)) ∧
      (∀ k, k ∉ [("confirmPassword", JSVal.str "abc")].map (fun kv => kv.1) →
        getEntry s1.fields k = getEntry passwordMounted.fields k) ∧
      isFormValid s1.fields none = .ok s1.form.valid ∧
      s1.defaultsSet = true :=
  setDefaultValues_seeds_fields passwordOptions passwordMounted
    [("confirmPassword", .str "abc")]
    (Reachable.mount passwordMounted
      [{ rule := alwaysRule, value := .str "" }, { rule := requiredRule, value := .str "" }]
      rfl)
    rfl

/-! ## C11: `onChange` stores the value and nothing else -/

theorem getEntry_setInValue (fields : Fields) (k k2 : String) (v : JSVal) :
    getEntry (setInValue fields k v) k2 =
      if k = k2 then
        some (match getEntry fields k with
          | some e => { e with value := v }
          | none => { events := none, valid := none, value := v, failProps := .undefined })
      else getEntry fields k2 := by
  induction fields with
  | nil => simp [setInValue, getEntry]
  | cons hd tl ih =>
    obtain ⟨a, e⟩ := hd
    by_cases ha : a = k
    · subst ha
      by_cases h2 : a = k2 <;> simp [setInValue, getEntry, h2]
    · by_cases h2 : k = k2
      · subst h2
        simp [setInValue, getEntry, ha, ih]
      · by_cases h3 : a = k2
        · subst h3
          simp [setInValue, getEntry, ha, h2]
        · simp [setInValue, getEntry, ha, h2, h3, ih]

theorem boundSpec_name (options : Options) (f : String) :
    (boundSpec options f).name = some f := by
  unfold boundSpec
  cases getEntry options.fields f <;> rfl

/-- C11: `onChange(f, v)` through the handler bound to `f` stores `v` as the
value of `f` and changes nothing else: the `valid` and `failProps` read from `f`,
the rest of the entry of `f`, the entry of every other field, `form` and the
defaults flag are as before; the result depends on the field spec through its
name only, so no rule of the spec is evaluated. -/
theorem onChange_sets_value_only (options : Options) (s : State) (f : String) (v : String) :
    getValue (onChange (boundSpec options f) v s).fields f = .str v ∧
    getValid (onChange (boundSpec options f) v s).fields f = getValid s.fields f ∧
    getFailProps (onChange (boundSpec options f) v s).fields f = getFailProps s.fields f ∧
    (∀ e, getEntry s.fields f = some e →
      getEntry (onChange (boundSpec options f) v s).fields f =
        some { e with value := .str v }) ∧
    (∀ k, k ≠ f →
      getEntry (onChange (boundSpec options f) v s).fields k = getEntry s.fields k) ∧
    (onChange (boundSpec options f) v s).form = s.form ∧
    (onChange (boundSpec options f) v s).defaultsSet = s.defaultsSet ∧
    (∀ spec : FieldSpec, spec.name = some f →
      onChange spec v s = onChange (boundSpec options f) v s) := by
  have hname := boundSpec_name options f
  have hget : ∀ k, getEntry (onChange (boundSpec options f) v s).fields k =
      if f = k then
        some (match getEntry s.fields f with
          | some e => { e with value := .str v }
          | none => { events := none, valid := none, value := .str v, failProps := .undefined })
      else getEntry s.fields k := by
    intro k
    simp only [onChange, hname, fieldKey]
    exact getEntry_setInValue s.fields f k (.str v)
  refine ⟨?_, ?_, ?_, ?_, ?_, rfl, rfl, ?_⟩
  · simp only [getValue, hget f, if_true]
    cases getEntry s.fields f <;> rfl
  · simp only [getValid, hget f, if_true]
    cases getEntry s.fields f <;> rfl
  · simp only [getFailProps, hget f, if_true]
    cases getEntry s.fields f <;> rfl
  · intro e he
    simp only [hget f, if_true, he]
  · intro k hk
    have hne : ¬ f = k := fun h => hk h.symm
    simp only [hget k, hne, if_false]
  · intro spec hspec
    simp only [onChange, hspec, hname]

/-! ## C16: `onFocus` marks the form touched and nothing else -/

/-- C16: `onFocus()` yields a state with `form.touched` true; `form.valid`, the
fields (the value, `valid` and `failProps` of every one) and the defaults flag
are as before. -/
theorem onFocus_sets_touched_only (s : State) :
    (onFocus s).form.touched = true ∧
    (onFocus s).form.valid = s.form.valid ∧
    (onFocus s).fields = s.fields ∧
    (onFocus s).defaultsSet = s.defaultsSet :=
  ⟨rfl, rfl, rfl, rfl⟩

/-! ## C15: the submit handler -/

theorem getEntry_submitValues (fields : Fields) (k : String) :
    getEntry (submitValues fields) k =
      (getEntry fields k).map (fun e => ({ value := e.value } : SubmitValue)) := by
  induction fields with
  | nil => rfl
  | cons hd tl ih =>
    obtain ⟨a, e⟩ := hd
    by_cases ha : a = k
    · simp [submitValues, getEntry, ha]
    · simp only [submitValues, List.map_cons, getEntry, ha, if_false]
      exact ih

/-- C15: the function returned by `formSubmit(handler)` leaves the component
state as it is and applies the handler once, to the current `form` and to a
mapping that has the field names of the registry, in the same order, and maps
each of them to a record that holds the field's current value and nothing else.
With a handler that records its arguments, exactly one call is recorded. -/
theorem formSubmit_calls_handler_once {σ : Type}
    (formHandler : FormState → List (String × SubmitValue) → σ → σ) (s : State) (world : σ) :
    (formSubmit formHandler s world).1 = s ∧
    (formSubmit formHandler s world).2 = formHandler s.form (submitValues s.fields) world ∧
    (submitValues s.fields).map (fun kv => kv.1) = s.fields.map (fun kv => kv.1) ∧
    (∀ k, getEntry (submitValues s.fields) k =
      (getEntry s.fields k).map (fun e => ({ value := e.value } : SubmitValue))) ∧
    formSubmit (fun form values calls => calls ++ [(form, values)]) s [] =
      (s, [(s.form, submitValues s.fields)]) := by
  refine ⟨rfl, rfl, ?_, getEntry_submitValues s.fields, rfl⟩
  simp [submitValues, Function.comp]

/-! ## C17: when dependent fields are tested -/

theorem runTests_own (name : Option String) (value : JSVal) (snapshot : Fields)
    (tests : List Rule) :
    ∀ t ∈ (runTests name value snapshot tests [] []).1,
      ∃ r ∈ tests, t = completedTest r (r.test value snapshot) name := by
  cases tests with
  | nil => simp [runTests]
  | cons u rest =>
    obtain ⟨r, hr, h1, h2, h3⟩ := runTests_results name value snapshot u rest [] []
    intro t ht
    rw [h1, List.mem_singleton] at ht
    refine ⟨r, hr, ?_⟩
    rw [ht]
    cases hp : allRulesPass value snapshot (u :: rest) with
    | true =>
      simp only [allRulesPass, List.all_eq_true] at hp
      rw [hp r hr]
    | false =>
      have hm := List.find?_some (h2 hp)
      simp only [Bool.not_eq_true'] at hm
      rw [hm]

/-- C17: in initial mode, or when some rule of the field fails, `testField`
returns exactly what the loop over the field's own rules produced: every
returned result is that of one of the field's own rules under the field's name,
and the calls made are those of the own rules up to the first failing one, so no
test of a dependent field is called. -/
theorem testField_no_cascade (options : Options) (fields : Fields) (fuel : Nat)
    (name : Option String) (tests : List Rule) (alsoTest : Option (List String))
    (value : JSVal) (initial : Bool)
    (h : initial = true ∨ allRulesPass value fields tests = false) :
    ∃ res calls,
      testField options fields (fuel + 1)
        (some { name := name, tests := some tests, alsoTest := alsoTest }) value initial =
        .ok (res, calls) ∧
      (res, calls) = runTests name value fields tests [] [] ∧
      (∀ t ∈ res, ∃ r ∈ tests, t = completedTest r (r.test value fields) name) ∧
      calls = (tests.takeWhile (fun t => t.test value fields) ++
        (tests.dropWhile (fun t => t.test value fields)).take 1).map
          (fun t => ({ rule := t, value := value } : TestCall)) := by
  have hcalls := runTests_calls name value fields tests [] []
  rw [evaluatedRules_eq_takeWhile, List.nil_append] at hcalls
  refine ⟨(runTests name value fields tests [] []).1, (runTests name value fields tests [] []).2,
    ?_, rfl, runTests_own name value fields tests, hcalls⟩
  simp only [testField]
  cases alsoTest with
  | none => rfl
  | some also =>
    simp only [failedTestCount_eq]
    have hc : (!initial && allRulesPass value fields tests) = false := by
      rcases h with h1 | h1 <;> simp [h1]
    simp [hc]

/-- C17, witness: the field `password` of `passwordOptions`, which names
`confirmPassword` in `alsoTest`, tested in initial mode. -/
theorem testField_no_cascade_witness :
    ∃ res calls,
      testField passwordOptions passwordMounted.fields (1 + 1)
        (some { name := some "password", tests := some [alwaysRule],
                alsoTest := some ["confirmPassword"] }) (.str "secret") true =
        .ok (res, calls) ∧
      (res, calls) = runTests (some "password") (.str "secret") passwordMounted.fields
        [alwaysRule] [] [] ∧
      (∀ t ∈ res, ∃ r ∈ [alwaysRule],
        t = completedTest r (r.test (.str "secret") passwordMounted.fields) (some "password")) ∧
      calls = ([alwaysRule].takeWhile (fun t => t.test (.str "secret") passwordMounted.fields) ++
        ([alwaysRule].dropWhile
          (fun t => t.test (.str "secret") passwordMounted.fields)).take 1).map
          (fun t => ({ rule := t, value := .str "secret" } : TestCall)) :=
  testField_no_cascade passwordOptions passwordMounted.fields 1 (some "password")
    [alwaysRule] (some ["confirmPassword"]) (.str "secret") true (Or.inl rfl)

/-! ## C18: a field with an empty rule list -/

/-- C18 (as amended): for a field whose rule list is empty, `testField` returns
the empty result list, and calls no test, for every value and snapshot in
initial mode, and in any mode when the field has no `alsoTest` or an empty one. -/
theorem testField_empty_rules (options : Options) (fields : Fields) (fuel : Nat)
    (name : Option String) (alsoTest : Option (List String)) (value : JSVal) (initial : Bool)
    (h : initial = true ∨ alsoTest = none ∨ alsoTest = some []) :
    testField options fields (fuel + 1)
      (some { name := name, tests := some [], alsoTest := alsoTest }) value initial =
      .ok ([], []) := by
  simp only [testField, runTests]
  rcases h with h1 | h1 | h1
  · subst h1
    cases alsoTest <;> simp
  · subst h1
    rfl
  · subst h1
    cases initial <;> simp [forEachAlsoTest]

/-- C18, witness: `emptyRulesSpec`, which names a dependent field, in initial
mode. -/
theorem testField_empty_rules_witness :
    testField passwordOptions passwordMounted.fields (1 + 1)
      (some { name := some "terms", tests := some [], alsoTest := some ["confirmPassword"] })
      (.str "x") true = .ok ([], []) :=
  testField_empty_rules passwordOptions passwordMounted.fields 1 (some "terms")
    (some ["confirmPassword"]) (.str "x") true (Or.inl rfl)

/-- C18, counterexample: `emptyRulesSpec` has an empty rule list and names
`confirmPassword` in `alsoTest`; in non-initial mode `testField` cascades, since
no own rule failed, and returns the failed result of the rule of
`confirmPassword`, marked quiet. -/
theorem testField_empty_rules_cascades :
    emptyRulesSpec.tests = some [] ∧
    (match testField passwordOptions passwordMounted.fields 2 (some emptyRulesSpec)
        (.str "x") false with
      | .ok r =>
        r.1.map (fun t => (t.fieldName, t.passed, t.quiet)) = [(none, false, some true)] ∧
          r.2.length = 1
      | .error _ => False) := by
  refine ⟨rfl, ?_⟩
  simp [testField, emptyRulesSpec, runTests, forEachAlsoTest, passwordOptions, getEntry,
    getValue, passwordMounted, requiredRule, completedTest, markQuiet]

/-! ## C20: what `onBlur` leaves alone -/

theorem applyPatch_validity_frame (existing : Option FieldState) (t : TestType) :
    (applyPatch existing (validityPatch t)).value =
      (match existing with | some e => e.value | none => .undefined) ∧
    (applyPatch existing (validityPatch t)).events = existing.bind (fun e => e.events) := by
  cases existing <;> exact ⟨rfl, rfl⟩

/-- C20: in a state whose `valid` flags are booleans, when `testField` returns
the results `res` for `f` and `v`, `onBlur(f, v)` returns a state in which the
value read from every field is as before (`v` is not stored), `form.touched` and
the defaults flag are as before, the entry of every field that no result of
`res` is attributed to is as before, and an entry that a result is attributed to
keeps its `events`. -/
theorem onBlur_frame (options : Options) (s : State) (fuel : Nat) (f : String) (v : String)
    (res : List TestType) (calls : List TestCall)
    (hbool : ∀ kv ∈ s.fields, ∃ b, kv.2.valid = some b)
    (hrun : testField options s.fields fuel (some (boundSpec options f)) (.str v) false =
      .ok (res, calls)) :
    ∃ s1, onBlur options fuel (boundSpec options f) v s = .ok (s1, calls) ∧
      (∀ k, getValue s1.fields k = getValue s.fields k) ∧
      s1.form.touched = s.form.touched ∧
      s1.defaultsSet = s.defaultsSet ∧
      (∀ k, (∀ t ∈ res, fieldKey t.fieldName ≠ k) →
        getEntry s1.fields k = getEntry s.fields k) ∧
      (∀ k, (getEntry s1.fields k).bind (fun e => e.events) =
        (getEntry s.fields k).bind (fun e => e.events)) := by
  obtain ⟨s1, h1, _, h3, _, _, h6, h7, _⟩ :=
    onBlur_of_boolean options fuel _ v s res calls hbool hrun
  refine ⟨s1, h1, ?_, h6, h7, ?_, ?_⟩
  · intro k
    have h4 := h3 k
    cases hl : lastResultFor k res with
    | none =>
      rw [hl] at h4
      simp only [getValue, h4]
    | some t =>
      rw [hl] at h4
      have hv := (applyPatch_validity_frame (getEntry s.fields k) t).1
      unfold getValue
      rw [h4]
      cases hge : getEntry s.fields k with
      | none => rw [hge] at hv; exact hv
      | some e => rw [hge] at hv; exact hv
  · intro k hk
    have h4 := h3 k
    rw [lastResultFor_eq_none k res hk] at h4
    exact h4
  · intro k
    have h4 := h3 k
    cases hl : lastResultFor k res with
    | none =>
      rw [hl] at h4
      rw [h4]
    | some t =>
      rw [hl] at h4
      rw [h4]
      exact (applyPatch_validity_frame (getEntry s.fields k) t).2

/-- C20, witness: `password` of `passwordOptions` blurred with "secret" right
after mount. -/
theorem onBlur_frame_witness :
    ∃ s1, onBlur passwordOptions 2 (boundSpec passwordOptions "password") "secret"
        passwordMounted =
        .ok (s1, [{ rule := alwaysRule, value := .str "secret" },
                  { rule := requiredRule, value := .str "" }]) ∧
      (∀ k, getValue s1.fields k = getValue passwordMounted.fields k) ∧
      s1.form.touched = passwordMounted.form.touched ∧
      s1.defaultsSet = passwordMounted.defaultsSet ∧
      (∀ k, (∀ t ∈ [completedTest alwaysRule true (some "password"),
                    markQuiet (completedTest requiredRule false none)],
            fieldKey t.fieldName ≠ k) →
        getEntry s1.fields k = getEntry passwordMounted.fields k) ∧
      (∀ k, (getEntry s1.fields k).bind (fun e => e.events) =
        (getEntry passwordMounted.fields k).bind (fun e => e.events)) :=
  onBlur_frame passwordOptions passwordMounted 2 "password" "secret"
    [completedTest alwaysRule true (some "password"),
     markQuiet (completedTest requiredRule false none)]
    [{ rule := alwaysRule, value := .str "secret" }, { rule := requiredRule, value := .str "" }]
    (by decide) rfl

/-! ## C12: `markFieldAsValid` -/

theorem deepMerger_undefined_left (v : JSVal) : deepMerger .undefined v = v :=
  deepMerger_of_not_object .undefined v rfl

/-- C12 (as amended): in a state whose `valid` flags are booleans,
`markFieldAsValid(f, v, { failProps, quietly })` returns; the stored `valid` of
`f` is then `v`; the stored `failProps` of `f` is undefined when `quietly` is
true, and otherwise the deep merge of the `failProps` held before with
`options.failProps`, which is `options.failProps` itself when those held before
are not an object; the value of `f` and the entry of every other field are as
before; `form.valid` is what `isFormValid()` returns on the new fields, and
`form.touched` and the defaults flag are as before. The method has no access to
any rule. -/
theorem markFieldAsValid_sets_field (s : State) (f : String) (v : Bool) (failProps : JSVal)
    (quietly : Bool) (hbool : ∀ kv ∈ s.fields, ∃ b, kv.2.valid = some b) :
    ∃ s1, markFieldAsValid f v failProps quietly s = .ok s1 ∧
      getValid s1.fields f = some v ∧
      getFailProps s1.fields f =
        (if quietly then .undefined else deepMerger (getFailProps s.fields f) failProps) ∧
      (quietly = false → (getFailProps s.fields f).isObject = false →
        getFailProps s1.fields f = failProps) ∧
      getValue s1.fields f = getValue s.fields f ∧
      (∀ k, k ≠ f → getEntry s1.fields k = getEntry s.fields k) ∧
      isFormValid s1.fields none = .ok s1.form.valid ∧
      s1.form.touched = s.form.touched ∧
      s1.defaultsSet = s.defaultsSet := by
  have hb := mergeDeepField_boolean s.fields f
    { failProps := some (if quietly then .undefined else failProps), valid := v, value := none }
    hbool
  have hget : ∀ k, getEntry (mergeDeepField s.fields f
      { failProps := some (if quietly then .undefined else failProps), valid := v,
        value := none }) k =
      if f = k then some (applyPatch (getEntry s.fields f)
        { failProps := some (if quietly then .undefined else failProps), valid := v,
          value := none })
      else getEntry s.fields k := fun k => getEntry_mergeDeepField s.fields f k _
  have hfp : getFailProps (mergeDeepField s.fields f
      { failProps := some (if quietly then .undefined else failProps), valid := v,
        value := none }) f =
      (if quietly then .undefined else deepMerger (getFailProps s.fields f) failProps) := by
    simp only [getFailProps, hget f, if_true]
    cases getEntry s.fields f with
    | none =>
      cases quietly <;>
        simp [applyPatch, FieldPatch.toEntry, deepMerger_undefined_left]
    | some e =>
      cases quietly <;>
        simp [applyPatch, mergeDeepEntry, deepMerger_undefined]
  refine ⟨{ fields := mergeDeepField s.fields f
              { failProps := some (if quietly then .undefined else failProps), valid := v,
                value := none },
            form := { s.form with
              valid := some (validConjunction (mergeDeepField s.fields f
                { failProps := some (if quietly then .undefined else failProps), valid := v,
                  value := none }) none) },
            defaultsSet := s.defaultsSet }, ?_, ?_, hfp, ?_, ?_, ?_, ?_, rfl, rfl⟩
  · simp only [markFieldAsValid, mergeDeep, List.foldl_cons, List.foldl_nil]
    exact setFormValidity_of_boolean _ hb
  · simp only [getValid, hget f, if_true]
    exact applyPatch_valid _ _
  · intro hq hobj
    rw [hfp, hq]
    simp [deepMerger_of_not_object _ _ hobj]
  · simp only [getValue, hget f, if_true]
    cases getEntry s.fields f <;> rfl
  · intro k hk
    have hne : ¬ f = k := fun h => hk h.symm
    simp only [hget k, hne, if_false]
  · exact isFormValid_of_boolean _ none hb

/-- C12, witness: `age` of the `ageOptions` form, holding the failure properties
of its first rule, marked invalid with other failure properties. -/
theorem markFieldAsValid_sets_field_witness :
    ∃ s1, markFieldAsValid "age" false (.obj (.cons "errorText" (.str "custom") .nil)) false
        ageBlurred = .ok s1 ∧
      getValid s1.fields "age" = some false ∧
      getFailProps s1.fields "age" =
        (if false then .undefined
          else deepMerger (getFailProps ageBlurred.fields "age")
            (.obj (.cons "errorText" (.str "custom") .nil))) ∧
      (false = false → (getFailProps ageBlurred.fields "age").isObject = false →
        getFailProps s1.fields "age" = .obj (.cons "errorText" (.str "custom") .nil)) ∧
      getValue s1.fields "age" = getValue ageBlurred.fields "age" ∧
      (∀ k, k ≠ "age" → getEntry s1.fields k = getEntry ageBlurred.fields k) ∧
      isFormValid s1.fields none = .ok s1.form.valid ∧
      s1.form.touched = ageBlurred.form.touched ∧
      s1.defaultsSet = ageBlurred.defaultsSet :=
  markFieldAsValid_sets_field ageBlurred "age" false
    (.obj (.cons "errorText" (.str "custom") .nil)) false (by decide)

/-- C12, counterexample: `age` of the `ageOptions` form holds the failure
properties `{ errorText: 'required', hint: 'fill in' }` of an earlier blur;
`markFieldAsValid('age', false, { failProps: { errorText: 'custom' }, quietly:
false })` stores `{ errorText: 'custom', hint: 'fill in' }`, not the `failProps`
it was given. -/
theorem markFieldAsValid_failProps_merged :
    stateOf (onBlur ageOptions 1 (boundSpec ageOptions "age") "" ageMounted) =
      some ageBlurred ∧
    getFailProps ageBlurred.fields "age" =
      .obj (.cons "errorText" (.str "required") (.cons "hint" (.str "fill in") .nil)) ∧
    (markFieldAsValid "age" false (.obj (.cons "errorText" (.str "custom") .nil)) false
        ageBlurred).toOption.map (fun s1 => getFailProps s1.fields "age") =
      some (.obj (.cons "errorText" (.str "custom") (.cons "hint" (.str "fill in") .nil))) := by
  refine ⟨by decide, by decide, by decide⟩

/-! ## C14: the fields after configuration -/

theorem mem_foldl_setEntry {α : Type} (g : String → α) (names : List String)
    (init : List (String × α)) :
    ∀ kv ∈ names.foldl (fun acc n => setEntry acc n (g n)) init,
      kv.2 = g kv.1 ∨ kv ∈ init := by
  induction names generalizing init with
  | nil => intro kv hkv; exact Or.inr hkv
  | cons n rest ih =>
    intro kv hkv
    simp only [List.foldl_cons] at hkv
    rcases ih _ kv hkv with h1 | h1
    · exact Or.inl h1
    · rcases mem_setEntry _ _ _ _ h1 with h2 | h2
      · left
        rw [h2]
      · exact Or.inr h2

theorem mountFields_eq (options : Options) (names : List String) (acc : Fields)
    (calls : List TestCall)
    (h : ∀ n ∈ names, ∃ spec tests, getEntry options.fields n = some spec ∧
      spec.tests = some tests) :
    mountFields options [] names acc calls =
      .ok (names.foldl (fun acc n => setEntry acc n (mountEntry options n)) acc,
           calls ++ names.flatMap (mountCalls options)) := by
  induction names generalizing acc calls with
  | nil => simp [mountFields]
  | cons n rest ih =>
    obtain ⟨spec, tests, hs, ht⟩ := h n (List.mem_cons_self _ _)
    have hb : (boundSpec options n).tests = some tests := by simp [boundSpec, hs, ht]
    have hn : (boundSpec options n).name = some n := boundSpec_name options n
    have hr : rulesOf options n = tests := by simp [rulesOf, hs, ht]
    simp only [mountFields, testField_initial options [] 0 _ tests _ hb, List.foldl_cons,
      List.flatMap_cons]
    rw [ih _ _ (fun m hm => h m (List.mem_cons_of_mem _ hm))]
    simp [mountEntry, mountCalls, hr, allTestsPassed_runTests, runTests_calls, orEmptyString,
      getValue, getEntry, JSVal.truthy]

/-- C14 (as amended): when the configuration passes `runChecks` (every
`alsoTest` name is configured) and every field object has a `tests` list,
`componentWillMount` returns from the constructor state; every configured field
then has an entry whose value is the empty string and whose `valid` is true
exactly when all of its rules pass on the empty string (against the fields of
the constructor state, which are none); no other name has an entry; and the
rule tests called are, field by field, those of the field's own rules up to its
first failing rule, so no rule is evaluated on behalf of another field. -/
theorem componentWillMount_initial_fields (options : Options)
    (hchecks : runChecks options = .ok ())
    (htests : ∀ kv ∈ options.fields, ∃ tests, kv.2.tests = some tests) :
    ∃ s, componentWillMount options initialState =
        .ok (s, (options.fields.map (fun kv => kv.1)).flatMap (fun n =>
          (evaluatedRules (.str "") [] (rulesOf options n)).map
            (fun t => { rule := t, value := .str "" }))) ∧
      (∀ f, (getEntry options.fields f).isSome = true →
        ∃ e, getEntry s.fields f = some e ∧ e.value = .str "" ∧
          e.valid = some (allRulesPass (.str "") [] (rulesOf options f))) ∧
      (∀ k, getEntry options.fields k = none → getEntry s.fields k = none) ∧
      isFormValid s.fields none = .ok s.form.valid := by
  have hnames : ∀ n ∈ options.fields.map (fun kv => kv.1), ∃ spec tests,
      getEntry options.fields n = some spec ∧ spec.tests = some tests := by
    intro n hn
    have hsome := getEntry_isSome_of_mem_keys options.fields n hn
    cases hg : getEntry options.fields n with
    | none => simp [hg] at hsome
    | some spec =>
      obtain ⟨tests, ht⟩ := htests (n, spec) (mem_keys_of_getEntry _ _ _ hg)
      exact ⟨spec, tests, rfl, ht⟩
  have hm := mountFields_eq options (options.fields.map (fun kv => kv.1)) [] [] hnames
  have hget := getEntry_foldl_setEntry (mountEntry options)
    (options.fields.map (fun kv => kv.1)) []
  have hmem := mem_foldl_setEntry (mountEntry options)
    (options.fields.map (fun kv => kv.1)) []
  generalize hdef : (options.fields.map (fun kv => kv.1)).foldl
    (fun acc n => setEntry acc n (mountEntry options n)) [] = mounted at hm hget hmem
  have hb : ∀ kv ∈ mounted, ∃ b, kv.2.valid = some b := by
    intro kv hkv
    rcases hmem kv hkv with h1 | h1
    · exact ⟨_, by rw [h1]; rfl⟩
    · cases h1
  refine ⟨{ fields := mounted,
            form := { touched := false, valid := some (validConjunction mounted none) },
            defaultsSet := false }, ?_, ?_, ?_, ?_⟩
  · simp only [componentWillMount, hchecks, initialState, hm, List.nil_append]
    have hs := setFormValidity_of_boolean
      { fields := mounted, form := { touched := false, valid := some false },
        defaultsSet := false } hb
    simp only at hs
    rw [hs]
    rfl
  · intro f hf
    have hk := mem_keys_of_getEntry_isSome options.fields f hf
    refine ⟨mountEntry options f, ?_, rfl, rfl⟩
    rw [hget f]
    simp [hk]
  · intro k hk
    have hnk : k ∉ options.fields.map (fun kv => kv.1) := by
      intro hmem2
      have := getEntry_isSome_of_mem_keys options.fields k hmem2
      simp [hk] at this
    rw [hget k]
    simp [hnk, getEntry]
  · exact isFormValid_of_boolean _ none hb

/-- C14, witness: the configuration `passwordOptions`. -/
theorem componentWillMount_initial_fields_witness :
    ∃ s, componentWillMount passwordOptions initialState =
        .ok (s, (passwordOptions.fields.map (fun kv => kv.1)).flatMap (fun n =>
          (evaluatedRules (.str "") [] (rulesOf passwordOptions n)).map
            (fun t => { rule := t, value := .str "" }))) ∧
      (∀ f, (getEntry passwordOptions.fields f).isSome = true →
        ∃ e, getEntry s.fields f = some e ∧ e.value = .str "" ∧
          e.valid = some (allRulesPass (.str "") [] (rulesOf passwordOptions f))) ∧
      (∀ k, getEntry passwordOptions.fields k = none → getEntry s.fields k = none) ∧
      isFormValid s.fields none = .ok s.form.valid :=
  componentWillMount_initial_fields passwordOptions rfl (by
    intro kv hkv
    simp only [passwordOptions, List.mem_cons, List.mem_singleton, List.not_mem_nil,
      or_false] at hkv
    rcases hkv with h | h <;> subst h <;> exact ⟨_, rfl⟩)

/-- C14, counterexample: (1) `noTestsOptions` passes `runChecks`, but its field
object has no `tests` list: the loop over `tests` in `testField` throws a
`TypeError`, `componentWillMount` does not return and the configured field `age`
gets no entry. (2) `ghostOptions` names a field that is not configured in
`alsoTest`: `runChecks` raises a configuration error and `componentWillMount`
does not return. -/
theorem componentWillMount_rejects_configuration :
    (getEntry noTestsOptions.fields "age").isSome = true ∧
    runChecks noTestsOptions = .ok () ∧
    (match componentWillMount noTestsOptions initialState with
      | .error e => e = JSError.typeError
      | .ok _ => False) ∧
    (getEntry ghostOptions.fields "age").isSome = true ∧
    (match componentWillMount ghostOptions initialState with
      | .error e => e = JSError.configurationError
      | .ok _ => False) := by
  refine ⟨rfl, rfl, ?_, rfl, ?_⟩
  · simp [componentWillMount, runChecks, noTestsOptions, mountFields, testField, boundSpec,
      getEntry, initialState]
  · simp [componentWillMount, runChecks, ghostOptions, getEntry]

/-! ## C13: a field with an empty rule list stays valid (not met by the code) -/

/-- C13 (the code at the failing input): (1) in `undefinedKeyOptions` the field
named "undefined" has an empty rule list and is valid after mount; a blur of
that very field finds no own rule failed and cascades to `confirmPassword`,
whose rule fails on its stored empty string; the result carries no field name
and is stored under the key "undefined", so the field with no rules is now
invalid. (2) In `misnamedOptions` the field `note` has an empty rule list, is
valid after mount and is named in the `alsoTest` of `password`; a blur of
`password` cascades to `note` and to `confirmPassword`, and the failed result of
`confirmPassword` is stored under the `name` its field object carries, `note`. -/
theorem empty_rules_field_invalidated_by_cascade :
    rulesOf undefinedKeyOptions "undefined" = [] ∧
    (stateOf (componentWillMount undefinedKeyOptions initialState)).map
        (fun s => getValid s.fields "undefined") = some (some true) ∧
    ((stateOf (componentWillMount undefinedKeyOptions initialState)).bind
      (fun s => stateOf (onBlur undefinedKeyOptions 2
        (boundSpec undefinedKeyOptions "undefined") "x" s))).map
        (fun s1 => getValid s1.fields "undefined") = some (some false) ∧
    rulesOf misnamedOptions "note" = [] ∧
    alsoTestOf misnamedOptions "password" = ["note", "confirmPassword"] ∧
    (stateOf (componentWillMount misnamedOptions initialState)).map
        (fun s => getValid s.fields "note") = some (some true) ∧
    ((stateOf (componentWillMount misnamedOptions initialState)).bind
      (fun s => stateOf (onBlur misnamedOptions 2
        (boundSpec misnamedOptions "password") "secret" s))).map
        (fun s1 => getValid s1.fields "note") = some (some false) := by
  refine ⟨rfl, by decide, by decide, rfl, by decide, by decide, by decide⟩

/-! ## When a field with an empty rule list stays valid -/

theorem forEachAlsoTest_pred (Q : TestType → Prop)
    (recur : String → Except JSError (List TestType × List TestCall))
    (names : List String)
    (hrec : ∀ n ∈ names, ∀ r, recur n = .ok r → ∀ t ∈ r.1, Q t)
    (hquiet : ∀ t, Q t → Q (markQuiet t))
    (acc r : List TestType × List TestCall) (hacc : ∀ t ∈ acc.1, Q t)
    (h : forEachAlsoTest recur names acc = .ok r) : ∀ t ∈ r.1, Q t := by
  induction names generalizing acc with
  | nil =>
    simp only [forEachAlsoTest, Except.ok.injEq] at h
    rw [← h]
    exact hacc
  | cons n rest ih =>
    simp only [forEachAlsoTest] at h
    cases hn : recur n with
    | error e => simp [hn] at h
    | ok side =>
      simp only [hn] at h
      apply ih (fun m hm => hrec m (List.mem_cons_of_mem _ hm)) _ _ h
      intro t ht
      rcases List.mem_append.mp ht with h1 | h1
      · exact hacc t h1
      · obtain ⟨u, hu, rfl⟩ := List.mem_map.mp h1
        exact hquiet u (hrec n (List.mem_cons_self _ _) side hn u hu)

/-- No result of `testField` is attributed to the key `g` when every field
object either has an empty rule list or stores its results under another key. -/
theorem testField_not_attributed (options : Options) (fields : Fields) (g : String)
    (hraw : ∀ k sp, getEntry options.fields k = some sp →
      sp.tests = some [] ∨ fieldKey sp.name ≠ g)
    (fuel : Nat) (sp : FieldSpec) (value : JSVal) (initial : Bool)
    (r : List TestType × List TestCall)
    (h : testField options fields fuel (some sp) value initial = .ok r)
    (hsp : sp.tests = some [] ∨ fieldKey sp.name ≠ g) :
    ∀ t ∈ r.1, fieldKey t.fieldName ≠ g := by
  induction fuel generalizing sp value initial r with
  | zero => simp [testField] at h
  | succ n ih =>
    cases ht : sp.tests with
    | none => simp [testField, ht] at h
    | some tests =>
      have hown : ∀ t ∈ (runTests sp.name value fields tests [] []).1,
          fieldKey t.fieldName ≠ g := by
        intro t hmem
        rcases hsp with h1 | h1
        · rw [ht] at h1
          simp only [Option.some.injEq] at h1
          subst h1
          simp [runTests] at hmem
        · obtain ⟨u, _, hu⟩ := runTests_own sp.name value fields tests t hmem
          rw [hu]
          exact h1
      simp only [testField, ht] at h
      cases hal : sp.alsoTest with
      | none =>
        simp only [hal, Except.ok.injEq] at h
        rw [← h]
        exact hown
      | some also =>
        simp only [hal] at h
        split at h
        · apply forEachAlsoTest_pred (fun t => fieldKey t.fieldName ≠ g) _ also _ _ _ r hown h
          · intro m _ r2 hr2
            cases hge : getEntry options.fields m with
            | none =>
              rw [hge] at hr2
              cases n <;> simp [testField] at hr2
            | some ms =>
              rw [hge] at hr2
              exact ih ms _ _ r2 hr2 (hraw m ms hge)
          · intro t hq
            exact hq
        · simp only [Except.ok.injEq] at h
          rw [← h]
          exact hown

theorem reachable_of_events (options : Options) (s : State)
    (h : ReachableByEvents options s) : Reachable options s := by
  induction h with
  | mount s calls h => exact Reachable.mount s calls h
  | change s f v _ hf ih => exact Reachable.change s f v ih hf
  | blur s s1 fuel f v calls _ hf h ih => exact Reachable.blur s s1 fuel f v calls ih hf h
  | focus s _ ih => exact Reachable.focus s ih
  | seed s s1 d calls _ h ih => exact Reachable.seed s s1 d calls ih h

theorem mountFields_names_of_ok (options : Options) (names : List String) (acc : Fields)
    (calls : List TestCall) (r : Fields × List TestCall)
    (h : mountFields options [] names acc calls = .ok r) :
    ∀ n ∈ names, ∃ spec tests, getEntry options.fields n = some spec ∧
      spec.tests = some tests := by
  induction names generalizing acc calls with
  | nil => intro n hn; cases hn
  | cons m rest ih =>
    simp only [mountFields] at h
    cases ht : testField options [] 1 (some (boundSpec options m)) (.str "") true with
    | error e => simp [ht] at h
    | ok tr =>
      simp only [ht] at h
      intro n hn
      rcases List.mem_cons.mp hn with h1 | h1
      · subst h1
        obtain ⟨tests, _, _, htests, _⟩ := testField_ok _ _ _ _ _ _ _ ht
        cases hge : getEntry options.fields n with
        | none => simp [boundSpec, hge] at htests
        | some spec =>
          refine ⟨spec, tests, rfl, ?_⟩
          simpa [boundSpec, hge] using htests
      · exact ih _ _ h n h1

theorem getEntry_of_mount (options : Options) (s : State) (calls : List TestCall)
    (h : componentWillMount options initialState = .ok (s, calls)) (g : String)
    (hg : (getEntry options.fields g).isSome = true) :
    getEntry s.fields g = some (mountEntry options g) := by
  obtain ⟨mounted, v, _, hm, _, hs⟩ := componentWillMount_ok options s calls h
  have hnames := mountFields_names_of_ok options _ [] [] mounted hm
  rw [mountFields_eq options _ [] [] hnames] at hm
  simp only [Except.ok.injEq] at hm
  rw [hs, ← hm]
  simp only
  rw [getEntry_foldl_setEntry]
  simp [mem_keys_of_getEntry_isSome options.fields g hg]

/-- A configured field `g` with an empty rule list, in a configuration in which
no other field object stores its results under the key `g`, is valid after
`componentWillMount` and in every state reached from there by `onChange`,
`onBlur` of any configured field, `onFocus` and `setDefaultValues`. -/
theorem empty_rules_field_stays_valid (options : Options) (g : String) (spec : FieldSpec)
    (s : State)
    (hcfg : getEntry options.fields g = some spec) (hrules : spec.tests = some [])
    (hother : ∀ k other, getEntry options.fields k = some other → k ≠ g →
      fieldKey other.name ≠ g)
    (hreach : ReachableByEvents options s) :
    getValid s.fields g = some true := by
  have hrulesOf : rulesOf options g = [] := by simp [rulesOf, hcfg, hrules]
  have hraw : ∀ k sp, getEntry options.fields k = some sp →
      sp.tests = some [] ∨ fieldKey sp.name ≠ g := by
    intro k sp hk
    by_cases hkg : k = g
    · subst hkg
      rw [hcfg] at hk
      simp only [Option.some.injEq] at hk
      subst hk
      exact Or.inl hrules
    · exact Or.inr (hother k sp hk hkg)
  induction hreach with
  | mount s calls h =>
    have hg : (getEntry options.fields g).isSome = true := by simp [hcfg]
    simp [getValid, getEntry_of_mount options s calls h g hg, mountEntry, hrulesOf,
      allRulesPass]
  | change s f v _ hf ih =>
    simp only [getValid, onChange, boundSpec_name, fieldKey, getEntry_setInValue] at ih ⊢
    by_cases hfg : f = g
    · subst hfg
      simp only [if_true]
      cases hge : getEntry s.fields f with
      | none => simp [hge] at ih
      | some e =>
        rw [hge] at ih
        simpa using ih
    · simpa [hfg] using ih
  | blur s s1 fuel f v calls hs hf h ih =>
    have hinv := invariant_of_reachable options s (reachable_of_events options s hs)
    obtain ⟨res, hrun⟩ := onBlur_ok_run _ _ _ _ _ _ _ h
    obtain ⟨s2, h1, _, h3, _⟩ :=
      onBlur_of_boolean options fuel _ v s res calls hinv.boolean hrun
    rw [h1] at h
    simp only [Except.ok.injEq, Prod.mk.injEq, and_true] at h
    subst h
    have hsp : (boundSpec options f).tests = some [] ∨
        fieldKey (boundSpec options f).name ≠ g := by
      by_cases hfg : f = g
      · subst hfg
        left
        simp [boundSpec, hcfg, hrules]
      · right
        rw [boundSpec_name]
        exact hfg
    have hnone := lastResultFor_eq_none g res
      (testField_not_attributed options s.fields g hraw fuel _ _ _ (res, calls) hrun hsp)
    have h4 := h3 g
    rw [hnone] at h4
    simp only [getValid, h4]
    exact ih
  | focus s _ ih => exact ih
  | seed s s1 d calls hs h ih =>
    have hinv := invariant_of_reachable options s (reachable_of_events options s hs)
    cases hd : s.defaultsSet with
    | true =>
      simp only [setDefaultValues, hd, Bool.not_true, Bool.false_eq_true, if_false,
        Except.ok.injEq, Prod.mk.injEq] at h
      rw [← h.1]
      exact ih
    | false =>
      obtain ⟨s2, h1, _, _, _, h5, h6⟩ :=
        setDefaultValues_first options d s hd hinv.boolean (hinv.unseeded hd)
      rw [h1] at h
      simp only [Except.ok.injEq, Prod.mk.injEq] at h
      rw [← h.1]
      by_cases hmem : g ∈ d.map (fun kv => kv.1)
      · obtain ⟨e, he, _, hval⟩ := h5 g hmem
        simp [getValid, he, hval, hrulesOf, allRulesPass]
      · simp only [getValid, h6 g hmem]
        exact ih

/-- An instance: `terms` of `termsOptions`, after a blur of `password` that
cascades to `terms` and to `confirmPassword`. -/
theorem empty_rules_field_stays_valid_terms :
    ReachableByEvents termsOptions termsBlurred ∧
    getValid termsBlurred.fields "terms" = some true :=
  have hreach : ReachableByEvents termsOptions termsBlurred :=
    ReachableByEvents.blur termsMounted termsBlurred 2 "password" "secret"
      [{ rule := alwaysRule, value := .str "secret" },
       { rule := requiredRule, value := .str "" }]
      (ReachableByEvents.mount termsMounted
        [{ rule := alwaysRule, value := .str "" }, { rule := requiredRule, value := .str "" }]
        rfl)
      rfl rfl
  ⟨hreach,
   empty_rules_field_stays_valid termsOptions "terms"
     { name := none, tests := some [], alsoTest := none } termsBlurred rfl rfl
     (by
      intro k other hk hne
      have hname : other.name = none := by
        simp only [termsOptions, getEntry] at hk
        split at hk
        · simp only [Option.some.injEq] at hk
          rw [← hk]
        · split at hk
          · simp only [Option.some.injEq] at hk
            rw [← hk]
          · split at hk
            · simp only [Option.some.injEq] at hk
              rw [← hk]
            · cases hk
      rw [hname]
      decide)
     hreach⟩

/-! ## C19: termination of the cascade -/

theorem forEachAlsoTest_mono
    (recur1 recur2 : String → Except JSError (List TestType × List TestCall))
    (names : List String)
    (h : ∀ g ∈ names, ∀ r, recur1 g = .ok r → recur2 g = .ok r)
    (acc r : List TestType × List TestCall)
    (h1 : forEachAlsoTest recur1 names acc = .ok r) :
    forEachAlsoTest recur2 names acc = .ok r := by
  induction names generalizing acc with
  | nil => simpa [forEachAlsoTest] using h1
  | cons n rest ih =>
    simp only [forEachAlsoTest] at h1 ⊢
    cases hrec : recur1 n with
    | error e => simp [hrec] at h1
    | ok side =>
      simp only [hrec] at h1
      rw [h n (List.mem_cons_self _ _) side hrec]
      exact ih (fun g hg => h g (List.mem_cons_of_mem _ hg)) _ h1

theorem forEachAlsoTest_returns
    (recur : String → Except JSError (List TestType × List TestCall))
    (names : List String) (h : ∀ g ∈ names, ∃ r, recur g = .ok r)
    (acc : List TestType × List TestCall) :
    ∃ r, forEachAlsoTest recur names acc = .ok r := by
  induction names generalizing acc with
  | nil => exact ⟨acc, rfl⟩
  | cons n rest ih =>
    obtain ⟨side, hside⟩ := h n (List.mem_cons_self _ _)
    simp only [forEachAlsoTest, hside]
    exact ih (fun g hg => h g (List.mem_cons_of_mem _ hg)) _

/-- More fuel does not change what `testField` returns. -/
theorem testField_mono (options : Options) (fields : Fields) (n : Nat)
    (spec : Option FieldSpec) (value : JSVal) (initial : Bool)
    (r : List TestType × List TestCall)
    (h : testField options fields n spec value initial = .ok r) :
    testField options fields (n + 1) spec value initial = .ok r := by
  induction n generalizing spec value initial r with
  | zero => simp [testField] at h
  | succ n ih =>
    cases spec with
    | none => simp [testField] at h
    | some sp =>
      cases ht : sp.tests with
      | none => simp [testField, ht] at h
      | some tests =>
        simp only [testField, ht] at h ⊢
        cases hal : sp.alsoTest with
        | none =>
          simp only [hal] at h ⊢
          exact h
        | some also =>
          simp only [hal] at h ⊢
          by_cases hc : (!initial &&
              ((runTests sp.name value fields tests [] []).1.filter
                (fun t => !t.passed)).length == 0) = true
          · simp only [hc, if_true] at h ⊢
            exact forEachAlsoTest_mono _ _ also (fun g _ r2 hr2 => ih _ _ _ _ hr2) _ _ h
          · simp only [hc, Bool.false_eq_true, if_false] at h ⊢
            exact h

theorem testField_mono_le (options : Options) (fields : Fields) (n m : Nat) (hnm : n ≤ m)
    (spec : Option FieldSpec) (value : JSVal) (initial : Bool)
    (r : List TestType × List TestCall)
    (h : testField options fields n spec value initial = .ok r) :
    testField options fields m spec value initial = .ok r := by
  induction m, hnm using Nat.le_induction with
  | base => exact h
  | succ m _ ih => exact testField_mono options fields m spec value initial r ih

theorem withName_self (spec : FieldSpec) : { spec with name := spec.name } = spec := by
  cases spec
  rfl

/-- With every `alsoTest` name configured, every field object holding a `tests`
list, and every `alsoTest` chain from `f` of length at most `depth`, `testField`
returns on the field object of `f`, under any name, with fuel `depth`. -/
theorem testField_returns_at_depth (options : Options) (fields : Fields)
    (hcfg : ∀ kv ∈ options.fields, (∃ tests, kv.2.tests = some tests) ∧
      ∀ also, kv.2.alsoTest = some also →
        ∀ g ∈ also, (getEntry options.fields g).isSome = true)
    (depth : Nat) (f : String) (spec : FieldSpec) (name : Option String)
    (hf : getEntry options.fields f = some spec)
    (hchain : ∀ chain, isAlsoTestChain options (f :: chain) = true →
      (f :: chain).length ≤ depth)
    (value : JSVal) (initial : Bool) :
    ∃ r, testField options fields depth (some { spec with name := name }) value initial =
      .ok r := by
  induction depth generalizing f spec name value initial with
  | zero =>
    have := hchain [] rfl
    simp at this
  | succ d ih =>
    obtain ⟨⟨tests, ht0⟩, halso0⟩ := hcfg (f, spec) (mem_keys_of_getEntry _ _ _ hf)
    have ht : spec.tests = some tests := ht0
    have halso : ∀ also, spec.alsoTest = some also →
        ∀ g ∈ also, (getEntry options.fields g).isSome = true := halso0
    simp only [testField, ht]
    cases hal : spec.alsoTest with
    | none => exact ⟨_, rfl⟩
    | some also =>
      simp only
      split
      · apply forEachAlsoTest_returns
        intro g hg
        have hgs := halso also hal g hg
        cases hge : getEntry options.fields g with
        | none => simp [hge] at hgs
        | some gs =>
          have hmem : g ∈ alsoTestOf options f := by
            simp [alsoTestOf, hf, hal, hg]
          have hchain2 : ∀ chain, isAlsoTestChain options (g :: chain) = true →
              (g :: chain).length ≤ d := by
            intro chain hc
            have h2 := hchain (g :: chain) (by
              simp only [isAlsoTestChain, Bool.and_eq_true, decide_eq_true_eq]
              exact ⟨hmem, hc⟩)
            simp only [List.length_cons] at h2 ⊢
            omega
          have h3 := ih g gs gs.name hge hchain2 (getValue fields g) false
          rw [withName_self] at h3
          exact h3
      · exact ⟨_, rfl⟩

/-- C19: in a configuration in which every field object has a `tests` list and
every `alsoTest` name is a configured field, for a configured field `f` from
which every chain of `alsoTest` has at most `depth` fields (so that no chain
from `f` runs into a cycle), `testField` on the spec bound to `f` returns, for
every state, value and mode, one and the same result with every recursion
budget of at least `depth`: the recursion is no deeper than the longest chain
and no missing field spec is looked up. `onBlur` of `f` then returns as well, in
every state whose `valid` flags are booleans. -/
theorem testField_terminates (options : Options) (f : String) (depth : Nat)
    (hcfg : ∀ kv ∈ options.fields, (∃ tests, kv.2.tests = some tests) ∧
      ∀ also, kv.2.alsoTest = some also →
        ∀ g ∈ also, (getEntry options.fields g).isSome = true)
    (hf : (getEntry options.fields f).isSome = true)
    (hchain : ∀ chain, isAlsoTestChain options (f :: chain) = true →
      (f :: chain).length ≤ depth) :
    (∀ fields value initial, ∃ r, ∀ fuel, depth ≤ fuel →
      testField options fields fuel (some (boundSpec options f)) value initial = .ok r) ∧
    (∀ s v, (∀ kv ∈ s.fields, ∃ b, kv.2.valid = some b) →
      ∃ s1 calls, ∀ fuel, depth ≤ fuel →
        onBlur options fuel (boundSpec options f) v s = .ok (s1, calls)) := by
  cases hge : getEntry options.fields f with
  | none => simp [hge] at hf
  | some spec =>
    have hbound : boundSpec options f = { spec with name := some f } := by
      simp [boundSpec, hge]
    have hret : ∀ fields value initial, ∃ r, ∀ fuel, depth ≤ fuel →
        testField options fields fuel (some (boundSpec options f)) value initial = .ok r := by
      intro fields value initial
      obtain ⟨r, hr⟩ := testField_returns_at_depth options fields hcfg depth f spec (some f)
        hge hchain value initial
      refine ⟨r, ?_⟩
      intro fuel hfuel
      rw [hbound]
      exact testField_mono_le options fields depth fuel hfuel _ value initial r hr
    refine ⟨hret, ?_⟩
    intro s v hbool
    obtain ⟨r, hr⟩ := hret s.fields (.str v) false
    obtain ⟨s1, h1, _⟩ := onBlur_of_boolean options depth (boundSpec options f) v s r.1 r.2
      hbool (hr depth (Nat.le_refl _))
    refine ⟨s1, r.2, ?_⟩
    intro fuel hfuel
    rw [← h1]
    simp only [onBlur, hr fuel hfuel, hr depth (Nat.le_refl _)]

/-- C19, witness: `password` of `passwordOptions`, whose longest `alsoTest` chain
is `password`, `confirmPassword`. -/
theorem testField_terminates_witness :
    (∀ fields value initial, ∃ r, ∀ fuel, 2 ≤ fuel →
      testField passwordOptions fields fuel (some (boundSpec passwordOptions "password"))
        value initial = .ok r) ∧
    (∀ s v, (∀ kv ∈ s.fields, ∃ b, kv.2.valid = some b) →
      ∃ s1 calls, ∀ fuel, 2 ≤ fuel →
        onBlur passwordOptions fuel (boundSpec passwordOptions "password") v s =
          .ok (s1, calls)) :=
  testField_terminates passwordOptions "password" 2
    (by
      intro kv hkv
      simp only [passwordOptions, List.mem_cons, List.mem_singleton, List.not_mem_nil,
        or_false] at hkv
      rcases hkv with h | h
      · subst h
        refine ⟨⟨_, rfl⟩, ?_⟩
        intro also hal g hg
        simp only [Option.some.injEq] at hal
        subst hal
        simp only [List.mem_singleton] at hg
        subst hg
        rfl
      · subst h
        refine ⟨⟨_, rfl⟩, ?_⟩
        intro also hal
        simp at hal)
    rfl
    (by
      intro chain hc
      cases chain with
      | nil => simp
      | cons g rest =>
        cases rest with
        | nil => simp
        | cons h rest2 =>
          simp only [isAlsoTestChain, Bool.and_eq_true, decide_eq_true_eq] at hc
          obtain ⟨hg, hh, _⟩ := hc
          have hg2 : g = "confirmPassword" := by
            simpa [alsoTestOf, passwordOptions, getEntry] using hg
          subst hg2
          simp [alsoTestOf, passwordOptions, getEntry] at hh)

end Formous
